import Mathlib

/-!
Verification of the resolution-and-matching core of a JavaScript
dependency-vulnerability scanner.

The development shallowly embeds the relevant source modules:

* `src/core/matcher.ts` — `isVersionVulnerable`, `findFixedVersion`;
* `src/core/parsers/lockfile-npm.ts` — `parseNpmLockfile`;
* `src/core/parsers/lockfile-pnpm.ts` — `parsePnpmLockfile`;
* `src/core/parsers/lockfile-yarn.ts` — `parseYarnClassic`, `parseYarnBerry`,
  `parseYarnLockfile`;
* the workspace-detection module — `isPathWithinRoot`, `resolvePatterns`,
  `detectWorkspace`;
* `src/core/scanner.ts` — the missing-path guards of `scan` and `scanSbom`.

JavaScript strings are modelled as `List Char` (abbreviated `Str`), JavaScript
objects used as string-keyed records as association lists in insertion order
with JavaScript assignment semantics (`jsSet`), and the filesystem as explicit
inputs: a file is `none` when absent and otherwise carries its `statSync` size
together with its (possibly already JSON/YAML-decoded) content.  The `semver`
library dependency is modelled by executable definitions restricted to plain
`major.minor.patch` versions and unions of simple comparator sets, which is the
fragment the claims under verification exercise.
-/

/-- JavaScript strings are modelled as lists of characters. -/
abbrev Str := List Char

deriving instance DecidableEq for Except

namespace JsStr

/-- The apostrophe character (written via its code point). -/
def apos : Char := Char.ofNat 39

/-- JavaScript `\s` whitespace, restricted to the ASCII whitespace characters
that can occur in the inputs we model. -/
def wsChar (c : Char) : Bool :=
  c = ' ' || c = '\t' || c = '\r' || c = '\n' || c = Char.ofNat 11 || c = Char.ofNat 12

/-- `s.trim()`: remove leading and trailing whitespace. -/
def trimStr (s : Str) : Str :=
  ((s.dropWhile wsChar).reverse.dropWhile wsChar).reverse

/-- `s.includes(sub)`: substring containment test. -/
def hasSubstr (s sub : Str) : Bool :=
  if sub.isPrefixOf s then true
  else
    match s with
    | [] => false
    | _ :: t => hasSubstr t sub

/-- `s.split(c)` for a single separator character. -/
def splitOnChar (c : Char) : Str → List Str
  | [] => [[]]
  | h :: t =>
    if h = c then [] :: splitOnChar c t
    else
      match splitOnChar c t with
      | [] => [[h]]
      | r :: rs => (h :: r) :: rs

/-- Worker for `splitOnSub`: `skip` counts separator characters still to be
consumed after a separator occurrence has been recognised. -/
def splitSkip (sep : Str) : Str → Nat → Str → List Str
  | [], _, cur => [cur.reverse]
  | _ :: t, k + 1, cur => splitSkip sep t k cur
  | h :: t, 0, cur =>
    if sep.isPrefixOf (h :: t) then
      cur.reverse :: splitSkip sep t (sep.length - 1) []
    else
      splitSkip sep t 0 (h :: cur)

/-- `s.split(sep)` for a non-empty separator string. -/
def splitOnSub (sep s : Str) : List Str :=
  splitSkip sep s 0 []

/-- `s.replace(/sep.*$/, '')` for a literal `sep`: cut the string at the first
occurrence of `sep` (identity when `sep` does not occur). -/
def cutAtSub (sep : Str) : Str → Str
  | [] => []
  | h :: t => if sep.isPrefixOf (h :: t) then [] else h :: cutAtSub sep t

/-- `s.indexOf(c)`, as an `Option` (JavaScript returns `-1` for `none`). -/
def idxOf? (c : Char) (s : Str) : Option Nat :=
  s.findIdx? (fun d => d = c)

/-- `s.lastIndexOf(c)`, as an `Option`. -/
def lastIdxOf? (c : Char) (s : Str) : Option Nat :=
  match (s.reverse).findIdx? (fun d => d = c) with
  | none => none
  | some i => some (s.length - 1 - i)

/-- `s.replace(/^["']|["']$/g, '')`: strip one leading and one trailing quote
character (double or single quote). -/
def stripQuotes (s : Str) : Str :=
  let s1 :=
    match s with
    | c :: t => if c = '"' || c = apos then t else s
    | [] => s
  match s1.reverse with
  | c :: t => if c = '"' || c = apos then t.reverse else s1
  | [] => s1

end JsStr

namespace JsRecord

/-- JavaScript object property lookup `m[k]` on a string-keyed record. -/
def jsGet : List (Str × α) → Str → Option α
  | [], _ => none
  | p :: t, k => if p.1 = k then some p.2 else jsGet t k

/-- JavaScript assignment `m[k] = v`: update in place when the key exists
(keeping its position), otherwise append. -/
def jsSet (m : List (Str × α)) (k : Str) (v : α) : List (Str × α) :=
  if m.any (fun p => p.1 = k) then
    m.map (fun p => if p.1 = k then (k, v) else p)
  else
    m ++ [(k, v)]

/-- Fold a sequence of assignments over a record. -/
def jsSetFold (l : List (Str × α)) (acc : List (Str × α)) : List (Str × α) :=
  l.foldl (fun a p => jsSet a p.1 p.2) acc

/-- The value of the last assignment with key `k` in an assignment list. -/
def lookupLast : List (Str × α) → Str → Option α
  | [], _ => none
  | p :: t, k =>
    match lookupLast t k with
    | some v => some v
    | none => if p.1 = k then some p.2 else none

/-- The value of the first assignment with key `k` in an assignment list. -/
def lookupFirst : List (Str × α) → Str → Option α
  | [], _ => none
  | p :: t, k => if p.1 = k then some p.2 else lookupFirst t k

end JsRecord

open JsStr JsRecord

/-! ## The semver dependency

Model of the fragment of the `semver` npm library used by `matcher.ts`,
restricted to plain `major.minor.patch` versions (no prerelease or build
suffixes) and ranges that are `||`-unions of space-separated simple
comparators.  Inputs outside this fragment are treated as unparseable, which
is the conservative direction for every claim settled below. -/

/-- A parsed semantic version. -/
structure SemVer where
  major : Nat
  minor : Nat
  patch : Nat
deriving DecidableEq, Repr

/-- A decimal digit character. -/
def digitChar (c : Char) : Bool := '0' ≤ c && c ≤ '9'

/-- Decimal value of a digit string. -/
def digitsToNat (s : Str) : Nat :=
  s.foldl (fun n c => n * 10 + (c.toNat - ('0').toNat)) 0

/-- A numeric version component: non-empty, all digits, no leading zero
(as in semver). -/
def parseNumComponent (s : Str) : Option Nat :=
  if s ≠ [] && s.all digitChar && (s.length = 1 || s.headD '0' ≠ '0') then
    some (digitsToNat s)
  else none

/-- Parse a plain `major.minor.patch` version string. -/
def parseSemver (s : Str) : Option SemVer :=
  match splitOnChar '.' s with
  | [a, b, c] =>
    match parseNumComponent a, parseNumComponent b, parseNumComponent c with
    | some x, some y, some z => some ⟨x, y, z⟩
    | _, _, _ => none
  | _ => none

/-- `semver.clean(version)`: trim, strip a leading run of `=`/`v` characters,
then parse; `none` models the `null` returned for unparseable input. -/
def semverClean (s : Str) : Option SemVer :=
  parseSemver ((trimStr s).dropWhile (fun c => c = 'v' || c = '='))

/-- Strict version order (lexicographic on major, minor, patch). -/
def vlt (a b : SemVer) : Bool :=
  a.major < b.major ||
    (a.major = b.major && (a.minor < b.minor ||
      (a.minor = b.minor && a.patch < b.patch)))

/-- Non-strict version order. -/
def vle (a b : SemVer) : Bool :=
  vlt a b || a = b

/-- Comparator operators of the modelled range language. -/
inductive CompOp where
  | eq | lt | le | gt | ge
deriving DecidableEq, Repr

/-- A single comparator, e.g. `>=1.2.3`. -/
structure Comparator where
  op : CompOp
  ver : SemVer
deriving DecidableEq, Repr

/-- Parse one comparator token. -/
def parseComparator (s : Str) : Option Comparator :=
  match s with
  | '>' :: '=' :: rest => (parseSemver rest).map (⟨CompOp.ge, ·⟩)
  | '<' :: '=' :: rest => (parseSemver rest).map (⟨CompOp.le, ·⟩)
  | '>' :: rest => (parseSemver rest).map (⟨CompOp.gt, ·⟩)
  | '<' :: rest => (parseSemver rest).map (⟨CompOp.lt, ·⟩)
  | '=' :: rest => (parseSemver rest).map (⟨CompOp.eq, ·⟩)
  | rest => (parseSemver rest).map (⟨CompOp.eq, ·⟩)

/-- Parse one comparator set (space-separated comparators, at least one). -/
def parseComparatorSet (s : Str) : Option (List Comparator) :=
  let toks := (splitOnChar ' ' (trimStr s)).filter (fun t => ¬t.isEmpty)
  if toks.isEmpty then none
  else toks.mapM parseComparator

/-- Split a range on the `||` separator. -/
def splitOrParts (s : Str) : List Str :=
  splitOnSub ('|' :: '|' :: []) s

/-- Parse a range: a `||`-union of comparator sets.  `none` models the
`Range` constructor throwing on malformed input. -/
def parseRange (s : Str) : Option (List (List Comparator)) :=
  (splitOrParts s).mapM parseComparatorSet

/-- Evaluate one comparator at a version. -/
def evalComparator (v : SemVer) (c : Comparator) : Bool :=
  match c.op with
  | CompOp.eq => v = c.ver
  | CompOp.lt => vlt v c.ver
  | CompOp.le => vle v c.ver
  | CompOp.gt => vlt c.ver v
  | CompOp.ge => vle c.ver v

/-- `semver.satisfies`: some comparator set is satisfied in full. -/
def evalRange (v : SemVer) (r : List (List Comparator)) : Bool :=
  r.any (fun cs => cs.all (evalComparator v))

/-! ## matcher.ts -/

/-- `isVersionVulnerable` from `matcher.ts`: clean the version (unparseable
versions are not vulnerable), then test range membership, with the
`try`/`catch` around `semver.satisfies` modelled by the `parseRange` failure
branch returning `false`. -/
def isVersionVulnerable (version vulnerableRange : Str) : Bool :=
  match semverClean version with
  | none => false
  | some cv =>
    match parseRange vulnerableRange with
    | none => false
    | some r => evalRange cv r

/-- Annotate each fixed-version string with its parsed version; `none` models
the `semver` library throwing on the first unparseable entry (either inside
`sort(semver.compare)` or at `semver.major`). -/
def annotate : List Str → Option (List (Str × SemVer))
  | [] => some []
  | f :: t =>
    match semverClean f, annotate t with
    | some v, some rest => some ((f, v) :: rest)
    | _, _ => none

/-- Stable insertion of an annotated version into a sorted list (before the
first strictly greater element), matching JavaScript's stable `sort`. -/
def insertSorted (x : Str × SemVer) : List (Str × SemVer) → List (Str × SemVer)
  | [] => [x]
  | h :: t => if vlt x.2 h.2 then x :: h :: t else h :: insertSorted x t

/-- `[...fixedVersions].sort(semver.compare)` on annotated versions. -/
def sortVers : List (Str × SemVer) → List (Str × SemVer)
  | [] => []
  | h :: t => insertSorted h (sortVers t)

/-- The selection loop of `findFixedVersion`: return the first sorted
candidate with the current major.minor, or with the current major and a
strictly greater minor. -/
def findLoop (cM cm : Nat) : List (Str × SemVer) → Option Str
  | [] => none
  | (f, v) :: rest =>
    if v.major = cM && v.minor = cm then some f
    else if v.major = cM && cm < v.minor then some f
    else findLoop cM cm rest

/-- `findFixedVersion` from `matcher.ts`.  `Except.error` models an uncaught
`semver` exception, `Except.ok none` models returning `undefined` (an
out-of-range array index). -/
def findFixedVersion (currentVersion : Str) (fixedVersions : List Str) :
    Except Unit (Option Str) :=
  match semverClean currentVersion with
  | none => Except.ok fixedVersions.getLast?
  | some cv =>
    match annotate fixedVersions with
    | none => Except.error ()
    | some ann =>
      let sorted := sortVers ann
      match findLoop cv.major cv.minor sorted with
      | some f => Except.ok (some f)
      | none => Except.ok ((sorted.getLast?).map Prod.fst)

/-! ## lockfile-npm.ts -/

/-- The 100 MB DoS guard shared by the npm and pnpm parsers. -/
def MAX_LOCKFILE_SIZE : Nat := 100 * 1024 * 1024

/-- One entry of the canonical `ResolvedPackageMap`. -/
structure LockfileEntry where
  version : Str
  resolved : Option Str := none
  integrity : Option Str := none
deriving DecidableEq, Repr

/-- The canonical resolved-package record. -/
abbrev PackageMap := List (Str × LockfileEntry)

/-- One value of the v2/v3 `packages` map of an npm lockfile. -/
structure NpmPkgEntry where
  version : Option Str
  resolved : Option Str := none
  integrity : Option Str := none
deriving DecidableEq, Repr

mutual

/-- A node of the v1 nested `dependencies` tree of an npm lockfile. -/
inductive NpmDepNode where
  | mk (version : Str) (resolved integrity : Option Str) (dependencies : NpmDepList) : NpmDepNode

/-- The entry list of a v1 `dependencies` object, in insertion order.
An absent `dependencies` field and an empty one are both modelled by `nil`:
the source skips the recursive call for a missing field and the call is a
no-op for an empty object, so the resulting map is the same. -/
inductive NpmDepList where
  | nil : NpmDepList
  | cons (name : Str) (node : NpmDepNode) (rest : NpmDepList) : NpmDepList

end

/-- A parsed `package-lock.json` document (`NpmLockfileV2` in the source). -/
structure NpmLockfileV2 where
  packages : Option (List (Str × NpmPkgEntry))
  dependencies : Option NpmDepList
deriving Inhabited

/-- Package-name derivation of the v2/v3 path: keys starting with
`node_modules/` are stripped of that prefix and reduced to the last
`/node_modules/`-separated segment; other keys are used verbatim. -/
def deriveNpmName (key : Str) : Str :=
  if (("node_modules/").toList).isPrefixOf key then
    let stripped := key.drop (("node_modules/").toList).length
    let parts := splitOnSub (("/node_modules/").toList) stripped
    parts.getLastD stripped
  else key

/-- The v2/v3 loop body as a list of record assignments: entries without a
(truthy) version are skipped, then the name is derived, then the root entry
(empty name) is skipped. -/
def v2Assignments (pkgs : List (Str × NpmPkgEntry)) : List (Str × LockfileEntry) :=
  pkgs.filterMap (fun p =>
    match p.2.version with
    | none => none
    | some v =>
      if v = [] then none
      else
        let name := deriveNpmName p.1
        if name = [] then none
        else some (name, ⟨v, p.2.resolved, p.2.integrity⟩))

/-- The v2/v3 `packages` loop of `parseNpmLockfile`. -/
def npmV2Fold (pkgs : List (Str × NpmPkgEntry)) : PackageMap :=
  jsSetFold (v2Assignments pkgs) []

mutual

/-- `extractDeps` of the v1 fallback, over one `dependencies` object:
assign the entry (overwriting any previous one), then recurse into the
nested `dependencies`. -/
def extractDeps (deps : NpmDepList) (packages : PackageMap) : PackageMap :=
  match deps with
  | NpmDepList.nil => packages
  | NpmDepList.cons name node rest => extractDeps rest (extractNode name node packages)

/-- Processing of a single v1 dependency node by `extractDeps`. -/
def extractNode (name : Str) (node : NpmDepNode) (packages : PackageMap) : PackageMap :=
  match node with
  | NpmDepNode.mk v r i children => extractDeps children (jsSet packages name ⟨v, r, i⟩)

end

mutual

/-- The assignment sequence performed by `extractDeps`, in traversal order
(pre-order: a node's own assignment precedes those of its nested
dependencies). -/
def flattenDeps : NpmDepList → List (Str × LockfileEntry)
  | NpmDepList.nil => []
  | NpmDepList.cons name node rest => flattenNode name node ++ flattenDeps rest

/-- The assignment sequence contributed by one v1 dependency node. -/
def flattenNode (name : Str) : NpmDepNode → List (Str × LockfileEntry)
  | NpmDepNode.mk v r i children => (name, ⟨v, r, i⟩) :: flattenDeps children

end

/-- `parseNpmLockfile`.  The filesystem is an explicit input: `none` when
`package-lock.json` is absent, otherwise the `statSync` size paired with the
`JSON.parse` outcome (`none` when parsing throws, which the source catches
and turns into `null`).  The size guard runs before any read or parse. -/
def parseNpmLockfile (file : Option (Nat × Option NpmLockfileV2)) : Option PackageMap :=
  match file with
  | none => none
  | some (size, parsedJson) =>
    if MAX_LOCKFILE_SIZE < size then none
    else
      match parsedJson with
      | none => none
      | some lockfile =>
        let packages :=
          match lockfile.packages with
          | some pkgs => npmV2Fold pkgs
          | none => []
        let packages :=
          match lockfile.dependencies with
          | some deps => if packages.length = 0 then extractDeps deps packages else packages
          | none => packages
        some packages

/-! ## lockfile-pnpm.ts -/

/-- One value of the pnpm `packages` map (only the resolution integrity is
read by the parser). -/
structure PnpmPkgVal where
  resolutionIntegrity : Option Str := none
deriving DecidableEq, Repr

/-- One entry of a pnpm `dependencies`/`devDependencies` object. -/
structure PnpmDepInfo where
  version : Str
deriving DecidableEq, Repr

/-- One entry of the pnpm `importers` map. -/
structure PnpmImporter where
  dependencies : Option (List (Str × PnpmDepInfo)) := none
  devDependencies : Option (List (Str × PnpmDepInfo)) := none
deriving DecidableEq, Repr

/-- A parsed `pnpm-lock.yaml` document. -/
structure PnpmLockfile where
  packages : Option (List (Str × PnpmPkgVal)) := none
  dependencies : Option (List (Str × PnpmDepInfo)) := none
  devDependencies : Option (List (Str × PnpmDepInfo)) := none
  importers : Option (List (Str × PnpmImporter)) := none

/-- `parsePackageKey`: split a `[/]name@version` key into name and version;
scoped names split on the last `@`, unscoped names on the first `@`. -/
def parsePackageKey (key : Str) : Option (Str × Str) :=
  let normalized := if (("/").toList).isPrefixOf key then key.drop 1 else key
  if (("@").toList).isPrefixOf normalized then
    match lastIdxOf? '@' normalized with
    | some lastAtIndex =>
      if 0 < lastAtIndex then
        some (normalized.take lastAtIndex, normalized.drop (lastAtIndex + 1))
      else none
    | none => none
  else
    match idxOf? '@' normalized with
    | some atIndex =>
      if 0 < atIndex then
        some (normalized.take atIndex, normalized.drop (atIndex + 1))
      else none
    | none => none

/-- The `extractDeps` closure of `parsePnpmLockfile`: add each entry whose
version is truthy, is not a `link:` reference, and whose name is not already
present; the stored version is cut at the first `(` (peer-disambiguation
suffix). -/
def extractDepsPnpm (deps : Option (List (Str × PnpmDepInfo))) (packages : PackageMap) :
    PackageMap :=
  match deps with
  | none => packages
  | some l =>
    l.foldl (fun acc p =>
      let version := p.2.version
      if version ≠ [] && ¬(("link:").toList).isPrefixOf version && (jsGet acc p.1).isNone then
        jsSet acc p.1 ⟨(splitOnChar '(' version).headD [], none, none⟩
      else acc) packages

/-- The `packages`-map loop of `parsePnpmLockfile`. -/
def pnpmPackagesFold (pkgs : List (Str × PnpmPkgVal)) : PackageMap :=
  pkgs.foldl (fun acc p =>
    match parsePackageKey p.1 with
    | some (name, version) => jsSet acc name ⟨version, none, p.2.resolutionIntegrity⟩
    | none => acc) []

/-- The primary phase of `parsePnpmLockfile`: the `packages` map when
present (truthy), else an empty record. -/
def pnpmBase (lockfile : PnpmLockfile) : PackageMap :=
  match lockfile.packages with
  | some pkgs => pnpmPackagesFold pkgs
  | none => []

/-- The secondary phase of `parsePnpmLockfile`: `dependencies`, then
`devDependencies`, then each importer's `dependencies` and
`devDependencies`. -/
def pnpmSecondary (lockfile : PnpmLockfile) (packages : PackageMap) : PackageMap :=
  let packages := extractDepsPnpm lockfile.dependencies packages
  let packages := extractDepsPnpm lockfile.devDependencies packages
  match lockfile.importers with
  | none => packages
  | some imps =>
    imps.foldl (fun acc imp =>
      extractDepsPnpm imp.2.devDependencies
        (extractDepsPnpm imp.2.dependencies acc)) packages

/-- `parsePnpmLockfile`, with the same filesystem convention as
`parseNpmLockfile` (`none` = absent file; `some (size, none)` = `yaml.load`
threw).  The 100 MB size guard runs before any read or parse. -/
def parsePnpmLockfile (file : Option (Nat × Option PnpmLockfile)) : Option PackageMap :=
  match file with
  | none => none
  | some (size, parsedYaml) =>
    if MAX_LOCKFILE_SIZE < size then none
    else
      match parsedYaml with
      | none => none
      | some lockfile => some (pnpmSecondary lockfile (pnpmBase lockfile))

/-! ## lockfile-yarn.ts -/

/-- Attempt the regex `kw\s{minWs,}["']?([^"'\s]+)["']?` anchored at the start
of `l`; returns the capture group. -/
def tryCapture (kw : Str) (minWs : Nat) (l : Str) : Option Str :=
  if kw.isPrefixOf l then
    let rest := l.drop kw.length
    let wsCount := (rest.takeWhile wsChar).length
    if minWs ≤ wsCount then
      let rest2 := rest.dropWhile wsChar
      let rest3 :=
        match rest2 with
        | c :: t => if c = '"' || c = apos then t else rest2
        | [] => rest2
      let cap := rest3.takeWhile (fun c => ¬(c = '"' || c = apos || wsChar c))
      if cap = [] then none else some cap
    else none
  else none

/-- Unanchored search for the pattern of `tryCapture`, trying every start
position left to right as the regex engine does. -/
def scanKV (kw : Str) (minWs : Nat) : Str → Option Str
  | [] => none
  | l@(_ :: t) =>
    match tryCapture kw minWs l with
    | some c => some c
    | none => scanKV kw minWs t

/-- Parser state shared by the two yarn state machines: the specifiers of the
current header and the fields collected so far. -/
structure YarnState where
  names : List Str
  version : Option Str
  resolved : Option Str
  integrity : Option Str
deriving DecidableEq, Repr

/-- The initial/reset yarn parser state. -/
def yarnState0 : YarnState := ⟨[], none, none, none⟩

/-- Split a header line into its comma-separated specifiers: drop one
trailing `:` (`replace(/:$/, '')`), split on `,`, trim and strip quotes. -/
def parseHeaderNames (line : Str) : List Str :=
  let headerLine :=
    match line.reverse with
    | ':' :: t => t.reverse
    | _ => line
  (splitOnChar ',' headerLine).map (fun s => stripQuotes (trimStr s))

/-- Yarn Classic name extraction from a specifier such as `react@^18.2.0`:
scoped specifiers split on the last `@`, unscoped on the first `@`; quotes
are stripped afterwards. -/
def yarnClassicName (pkgSpec : Str) : Str :=
  let name :=
    if (("@").toList).isPrefixOf pkgSpec then
      match lastIdxOf? '@' pkgSpec with
      | some lastAtIndex => pkgSpec.take lastAtIndex
      | none => pkgSpec
    else
      match idxOf? '@' pkgSpec with
      | some atIndex => if 0 < atIndex then pkgSpec.take atIndex else pkgSpec
      | none => pkgSpec
  stripQuotes name

/-- `saveCurrentPackage` of the Classic parser: for each specifier of the
current block, insert the derived name unless it is empty or already present
(first occurrence wins). -/
def saveClassic (st : YarnState) (packages : PackageMap) : PackageMap :=
  match st.version with
  | none => packages
  | some v =>
    if st.names ≠ [] then
      st.names.foldl (fun acc spec =>
        let name := yarnClassicName spec
        if name ≠ [] && (jsGet acc name).isNone then
          jsSet acc name ⟨v, st.resolved, st.integrity⟩
        else acc) packages
    else packages

/-- One line of the Classic state machine. -/
def classicStep (acc : PackageMap × YarnState) (line : Str) : PackageMap × YarnState :=
  let (packages, st) := acc
  if (("#").toList).isPrefixOf line || trimStr line = [] then acc
  else if ¬((" ").toList).isPrefixOf line && ¬(("\t").toList).isPrefixOf line &&
      line.contains '@' then
    (saveClassic st packages, ⟨parseHeaderNames line, none, none, none⟩)
  else if hasSubstr line (("version").toList) then
    match scanKV (("version").toList) 1 line with
    | some v => (packages, { st with version := some v })
    | none => acc
  else if hasSubstr line (("resolved").toList) then
    match scanKV (("resolved").toList) 1 line with
    | some r => (packages, { st with resolved := some r })
    | none => acc
  else if hasSubstr line (("integrity").toList) then
    match scanKV (("integrity").toList) 1 line with
    | some i => (packages, { st with integrity := some i })
    | none => acc
  else acc

/-- `parseYarnClassic`. -/
def parseYarnClassic (content : Str) : PackageMap :=
  let lines := splitOnChar '\n' content
  let result := lines.foldl classicStep ([], yarnState0)
  saveClassic result.2 result.1

/-- Yarn Berry name extraction: strip quotes, cut `@npm:`/`@workspace:`
protocol suffixes, then split scoped names on the last `@` (when its index is
positive) and unscoped names on the first `@`. -/
def yarnBerryName (pkgSpec : Str) : Str :=
  let name := stripQuotes pkgSpec
  let name := cutAtSub (("@npm:").toList) name
  let name := cutAtSub (("@workspace:").toList) name
  if (("@").toList).isPrefixOf name then
    match lastIdxOf? '@' name with
    | some lastAtIndex => if 0 < lastAtIndex then name.take lastAtIndex else name
    | none => name
  else
    match idxOf? '@' name with
    | some atIndex => if 0 < atIndex then name.take atIndex else name
    | none => name

/-- `saveCurrentPackage` of the Berry parser (first occurrence wins). -/
def saveBerry (st : YarnState) (packages : PackageMap) : PackageMap :=
  match st.version with
  | none => packages
  | some v =>
    if st.names ≠ [] then
      st.names.foldl (fun acc spec =>
        let name := yarnBerryName spec
        if name ≠ [] && (jsGet acc name).isNone then
          jsSet acc name ⟨v, st.resolved, st.integrity⟩
        else acc) packages
    else packages

/-- Test for `/^\s+kw/`: at least one leading whitespace character followed
by the literal `kw`. -/
def wsThen (kw : Str) (line : Str) : Bool :=
  (line.takeWhile wsChar) ≠ [] && kw.isPrefixOf (line.dropWhile wsChar)

/-- One line of the Berry state machine. -/
def berryStep (acc : PackageMap × YarnState) (line : Str) : PackageMap × YarnState :=
  let (packages, st) := acc
  if (("#").toList).isPrefixOf line || (("__metadata:").toList).isPrefixOf line ||
      trimStr line = [] then acc
  else if ¬((" ").toList).isPrefixOf line && line.contains '@' &&
      ((":").toList).isSuffixOf line then
    (saveBerry st packages, ⟨parseHeaderNames line, none, none, none⟩)
  else if wsThen (("version:").toList) line then
    match scanKV (("version:").toList) 0 line with
    | some v => (packages, { st with version := some v })
    | none => acc
  else if wsThen (("resolution:").toList) line then
    match scanKV (("resolution:").toList) 0 line with
    | some r => (packages, { st with resolved := some r })
    | none => acc
  else if wsThen (("checksum:").toList) line then
    match scanKV (("checksum:").toList) 0 line with
    | some i => (packages, { st with integrity := some i })
    | none => acc
  else acc

/-- `parseYarnBerry`. -/
def parseYarnBerry (content : Str) : PackageMap :=
  let lines := splitOnChar '\n' content
  let result := lines.foldl berryStep ([], yarnState0)
  saveBerry result.2 result.1

/-- `isYarnBerry`: dialect detection by content markers. -/
def isYarnBerry (content : Str) : Bool :=
  hasSubstr content (("__metadata:").toList) || hasSubstr content (("@npm:").toList)

/-- `parseYarnLockfile`.  The file input carries its `statSync` size for
comparability with the other two parsers, but the source performs no size
check for yarn: the size component is never consulted and the whole content
is always read and parsed. -/
def parseYarnLockfile (file : Option (Nat × Str)) : Option PackageMap :=
  match file with
  | none => none
  | some (_, content) =>
    some (if isYarnBerry content then parseYarnBerry content else parseYarnClassic content)

/-! ## Workspace detection module -/

/-- Normalize an absolute posix path into its segment list, resolving `.`,
`..` and empty segments as `node:path` does. -/
def normalizeSegs (p : Str) : List Str :=
  (splitOnChar '/' p).foldl (fun acc seg =>
    if seg = [] || seg = ['.'] then acc
    else if seg = ('.' :: '.' :: []) then acc.dropLast
    else acc ++ [seg]) []

/-- Drop the common prefix of two segment lists. -/
def dropCommonPrefix : List Str → List Str → List Str × List Str
  | a :: as_, b :: bs =>
    if a = b then dropCommonPrefix as_ bs else (a :: as_, b :: bs)
  | as_, bs => (as_, bs)

/-- Join path segments with `/`. -/
def joinSegs (segs : List Str) : Str :=
  (segs.intersperse (('/') :: [])).flatten

/-- `path.relative(from, to)` of `node:path` (posix), for absolute paths. -/
def pathRelative (fromPath toPath : Str) : Str :=
  let rest := dropCommonPrefix (normalizeSegs fromPath) (normalizeSegs toPath)
  joinSegs (rest.1.map (fun _ => ('.' :: '.' :: [])) ++ rest.2)

/-- `path.dirname` of `node:path` (posix), for paths without trailing
slashes (glob file matches never end in `/`). -/
def dirname (p : Str) : Str :=
  match lastIdxOf? '/' p with
  | none => ['.']
  | some 0 => ['/']
  | some i => p.take i

/-- `isPathWithinRoot` of the workspace module: the relative path must not
start with `..` and must not be absolute. -/
def isPathWithinRoot (rootPath targetPath : Str) : Bool :=
  let rel := pathRelative rootPath targetPath
  ¬(('.' :: '.' :: []).isPrefixOf rel) && ¬((('/') :: []).isPrefixOf rel)

/-- Pattern normalization of `resolvePatterns`: patterns already ending in
`/package.json` are kept, a trailing `/*` becomes `/*/package.json`, and
everything else gets `/package.json` appended. -/
def normalizePattern (pattern : Str) : Str :=
  if (("/package.json").toList).isSuffixOf pattern then pattern
  else if (("/*").toList).isSuffixOf pattern then
    pattern.take (pattern.length - 2) ++ (("/*/package.json").toList)
  else pattern ++ (("/package.json").toList)

/-- `[...new Set(resolved)]`: deduplicate keeping first occurrences. -/
def dedupFirst (l : List Str) : List Str :=
  l.foldl (fun acc x => if x ∈ acc then acc else acc ++ [x]) []

/-- The inner loop body of `resolvePatterns`: keep a glob match's directory
only when it is lexically within the root. -/
def resolveOneMatch (rootPath : Str) (r : List Str) (m : Str) : List Str :=
  let pkgDir := dirname m
  if isPathWithinRoot rootPath pkgDir then r ++ [pkgDir] else r

/-- The outer loop body of `resolvePatterns`: drop negation patterns, reject
patterns containing `..` before any glob evaluation, then normalize, expand
and filter the matches. -/
def resolveOnePattern (rootPath : Str) (globOracle : Str → List Str)
    (resolved : List Str) (pattern : Str) : List Str :=
  if (("!").toList).isPrefixOf pattern then resolved
  else if hasSubstr pattern (('.' :: '.' :: [])) then resolved
  else (globOracle (normalizePattern pattern)).foldl (resolveOneMatch rootPath) resolved

/-- `resolvePatterns`.  Glob expansion is an explicit input: `globOracle`
maps a normalized pattern to the absolute file paths `glob.sync` returns for
it (an arbitrary function, so every theorem below holds for any filesystem
contents). -/
def resolvePatterns (rootPath : Str) (patterns : List Str)
    (globOracle : Str → List Str) : List Str :=
  dedupFirst (patterns.foldl (resolveOnePattern rootPath globOracle) [])

/-- Workspace flavour. -/
inductive WorkspaceType where
  | npm | pnpm | yarn | lerna | none
deriving DecidableEq, Repr

/-- `WorkspaceInfo`. -/
structure WorkspaceInfo where
  type : WorkspaceType
  rootPath : Str
  packages : List Str
  patterns : List Str
deriving DecidableEq, Repr

/-- `detectWorkspace`.  The three config probes are explicit inputs holding
the glob-pattern lists each would return (`none` when the config file is
absent or unreadable), and `yarnLockExists` models the `yarn.lock` presence
probe that disambiguates yarn from npm. -/
def detectWorkspace (rootPath : Str) (pnpmPatterns lernaPatterns npmPatterns : Option (List Str))
    (yarnLockExists : Bool) (globOracle : Str → List Str) : WorkspaceInfo :=
  match pnpmPatterns with
  | some pats => ⟨WorkspaceType.pnpm, rootPath, resolvePatterns rootPath pats globOracle, pats⟩
  | none =>
    match lernaPatterns with
    | some pats => ⟨WorkspaceType.lerna, rootPath, resolvePatterns rootPath pats globOracle, pats⟩
    | none =>
      match npmPatterns with
      | some pats =>
        ⟨if yarnLockExists then WorkspaceType.yarn else WorkspaceType.npm, rootPath,
          resolvePatterns rootPath pats globOracle, pats⟩
      | none => ⟨WorkspaceType.none, rootPath, [], []⟩

/-! ## scanner.ts: the terminal input-failure guards -/

/-- A finding (pure output value). -/
structure Finding where
  package : Str
  currentVersion : Str
  fixedVersion : Str
deriving DecidableEq, Repr

/-- One project result of a scan. -/
structure ProjectResult where
  name : Str
  path : Str
  findings : List Finding
  vulnerable : Bool
deriving DecidableEq, Repr

/-- The `ScanResult` contract. -/
structure ScanResult where
  cve : Str
  vulnerable : Bool
  scanTime : Str
  projects : List ProjectResult
  errors : List Str
deriving DecidableEq, Repr

/-- The scanned CVE identifier. -/
def cveId : Str := ("CVE-2025-55182").toList

/-- `scan`.  `rootExists` is the `existsSync(rootPath)` probe, `now` the
`new Date().toISOString()` value, and `rest` the remainder of the scan
pipeline (workspace detection, project discovery, per-project scanning),
which may itself fail — the guard returns before `rest` can run or throw. -/
def scan (rootExists : Bool) (rootPath now : Str)
    (rest : Unit → Except Str ScanResult) : Except Str ScanResult :=
  if rootExists then rest ()
  else Except.ok ⟨cveId, false, now, [], [(("Path does not exist: ").toList) ++ rootPath]⟩

/-- `scanSbom`, with the same conventions as `scan`. -/
def scanSbom (sbomExists : Bool) (sbomPath now : Str)
    (rest : Unit → Except Str ScanResult) : Except Str ScanResult :=
  if sbomExists then rest ()
  else Except.ok ⟨cveId, false, now, [], [(("SBOM file does not exist: ").toList) ++ sbomPath]⟩


/-! ## Record lemmas -/

/-- Mapping the in-place update for key `k` over a record does not change
lookups at other keys. -/
theorem jsGet_map_ne {α : Type} (t : List (Str × α)) (k k' : Str) (v : α) (h : k' ≠ k) :
    jsGet (t.map (fun p => if p.1 = k then (k, v) else p)) k' = jsGet t k' := by
  induction t with
  | nil => rfl
  | cons q t ih =>
    by_cases hq : q.1 = k
    · have h1 : ¬(k = k') := fun hh => h hh.symm
      have h2 : ¬(q.1 = k') := fun hh => h (by rw [← hh, hq])
      simp only [List.map_cons, hq, if_pos, jsGet, h1, if_false, h2, ih]
    · rw [List.map_cons, if_neg hq]
      simp only [jsGet, ih]

/-- Lookup at `k` after the in-place update for `k`, when `k` occurs. -/
theorem jsGet_map_self {α : Type} (m : List (Str × α)) (k : Str) (v : α)
    (hany : m.any (fun p => decide (p.1 = k)) = true) :
    jsGet (m.map (fun p => if p.1 = k then (k, v) else p)) k = some v := by
  induction m with
  | nil => simp at hany
  | cons q t ih =>
    by_cases hq : q.1 = k
    · simp only [List.map_cons, hq, if_pos, jsGet, if_pos rfl]
    · have ht : t.any (fun p => decide (p.1 = k)) = true := by
        simp only [List.any_cons, Bool.or_eq_true, decide_eq_true_eq] at hany
        rcases hany with hcase | hcase
        · exact absurd hcase hq
        · exact hcase
      rw [List.map_cons, if_neg hq]
      simp only [jsGet, hq, if_false, ih ht]

/-- A key can only be found when some pair carries it. -/
theorem jsGet_eq_none_of_any_false {α : Type} (m : List (Str × α)) (k : Str)
    (h : m.any (fun p => decide (p.1 = k)) = false) : jsGet m k = none := by
  induction m with
  | nil => rfl
  | cons q t ih =>
    simp only [List.any_cons, Bool.or_eq_false_iff, decide_eq_false_iff_not] at h
    simp only [jsGet, h.1, if_false]
    exact ih h.2

/-- Lookup in the append that `jsSet` performs when the key is absent. -/
theorem jsGet_append_single {α : Type} (m : List (Str × α)) (k k' : Str) (v : α) :
    jsGet (m ++ [(k, v)]) k' =
      match jsGet m k' with
      | some w => some w
      | none => if k' = k then some v else none := by
  induction m with
  | nil =>
    by_cases hk : k' = k
    · simp only [List.nil_append, jsGet, hk, if_pos, ite_true]
    · simp only [List.nil_append, jsGet]
      rw [if_neg (fun hh => hk hh.symm), if_neg hk]
  | cons q t ih =>
    by_cases hq : q.1 = k'
    · simp only [List.cons_append, jsGet, hq, if_pos, ite_true]
    · simp only [List.cons_append, jsGet, hq, if_false, ite_false, List.append_eq, ih]

/-- JavaScript assignment then lookup. -/
theorem jsGet_jsSet {α : Type} (m : List (Str × α)) (k k' : Str) (v : α) :
    jsGet (jsSet m k v) k' = if k' = k then some v else jsGet m k' := by
  by_cases hany : m.any (fun p => decide (p.1 = k)) = true
  · simp only [jsSet, hany, if_true]
    by_cases hk : k' = k
    · subst hk; rw [if_pos rfl]; exact jsGet_map_self m k' v hany
    · rw [if_neg hk]; exact jsGet_map_ne m k k' v hk
  · have hany' : m.any (fun p => decide (p.1 = k)) = false :=
      Bool.eq_false_iff.mpr hany
    simp only [jsSet, hany', Bool.false_eq_true, if_false]
    rw [jsGet_append_single]
    by_cases hk : k' = k
    · rw [hk, jsGet_eq_none_of_any_false m k hany', if_pos rfl]
    · cases hm : jsGet m k' with
      | none => rw [if_neg hk]
      | some w => rw [if_neg hk, if_neg hk]

/-- `jsSetFold` over an appended assignment list. -/
theorem jsSetFold_append {α : Type} (a b : List (Str × α)) (acc : List (Str × α)) :
    jsSetFold (a ++ b) acc = jsSetFold b (jsSetFold a acc) := by
  simp only [jsSetFold, List.foldl_append]

/-- Lookup after a fold of assignments: the last assignment for the key wins,
with the original record as fallback. -/
theorem jsGet_jsSetFold {α : Type} (l : List (Str × α)) (acc : List (Str × α)) (k : Str) :
    jsGet (jsSetFold l acc) k =
      match lookupLast l k with
      | some v => some v
      | none => jsGet acc k := by
  induction l generalizing acc with
  | nil => rfl
  | cons p t ih =>
    have step : jsSetFold (p :: t) acc = jsSetFold t (jsSet acc p.1 p.2) := rfl
    rw [step, ih]
    cases hl : lookupLast t k with
    | some v => simp only [lookupLast, hl]
    | none =>
      rw [jsGet_jsSet]
      simp only [lookupLast, hl]
      by_cases hp : p.1 = k
      · rw [if_pos hp, if_pos hp.symm]
      · rw [if_neg hp, if_neg (fun hh => hp hh.symm)]

/-- A key absent from an assignment list has no last assignment. -/
theorem lookupLast_eq_none {α : Type} (l : List (Str × α)) (k : Str)
    (h : ∀ p ∈ l, p.1 ≠ k) : lookupLast l k = none := by
  induction l with
  | nil => rfl
  | cons p t ih =>
    have hp : p.1 ≠ k := h p (List.mem_cons_self p t)
    have ht : lookupLast t k = none := ih (fun q hq => h q (List.mem_cons_of_mem p hq))
    simp only [lookupLast, ht, hp, if_false]

/-! ## Claim theorems -/

/-- C9: for a root path (for `scan`) or SBOM path (for `scanSbom`) that does
not exist, the entry point returns immediately and non-exceptionally with a
`ScanResult` having an empty project list, `vulnerable = false`, and exactly
one descriptive error string; the remainder of the pipeline (which could
throw) is never consulted. -/
theorem scan_missing_path_terminal :
    ∀ (rootPath sbomPath now : Str) (rest rest2 : Unit → Except Str ScanResult),
      (∃ r, scan false rootPath now rest = Except.ok r ∧
        r.projects = [] ∧ r.vulnerable = false ∧
        r.errors = [(("Path does not exist: ").toList) ++ rootPath] ∧ r.errors.length = 1) ∧
      scan false rootPath now rest = scan false rootPath now rest2 ∧
      (∃ r, scanSbom false sbomPath now rest = Except.ok r ∧
        r.projects = [] ∧ r.vulnerable = false ∧
        r.errors = [(("SBOM file does not exist: ").toList) ++ sbomPath] ∧ r.errors.length = 1) ∧
      scanSbom false sbomPath now rest = scanSbom false sbomPath now rest2 := by
  intro rootPath sbomPath now rest rest2
  exact ⟨⟨_, rfl, rfl, rfl, rfl, rfl⟩, rfl, ⟨_, rfl, rfl, rfl, rfl, rfl⟩, rfl⟩

/-- C10: when the current version is unparseable, `findFixedVersion` returns
the final element of the fixed list as supplied (without sorting) — which for
the unsorted list `["2.0.0", "1.0.0"]` is `"1.0.0"`, not the greatest
candidate — and for an empty list the result is `undefined` (`ok none`). -/
theorem findFixedVersion_unparseable_current :
    (∀ cur l, semverClean cur = none → findFixedVersion cur l = Except.ok l.getLast?)
  ∧ findFixedVersion (("invalid").toList) [("2.0.0").toList, ("1.0.0").toList] =
      Except.ok (some (("1.0.0").toList))
  ∧ semverClean (("1.0.0").toList) = some ⟨1, 0, 0⟩
  ∧ semverClean (("2.0.0").toList) = some ⟨2, 0, 0⟩
  ∧ vlt ⟨1, 0, 0⟩ ⟨2, 0, 0⟩ = true
  ∧ (∀ cur, findFixedVersion cur [] = Except.ok none) := by
  refine ⟨?_, by decide, by decide, by decide, by decide, ?_⟩
  · intro cur l h
    simp only [findFixedVersion, h]
  · intro cur
    cases h : semverClean cur with
    | none => simp only [findFixedVersion, h]; rfl
    | some cv => simp only [findFixedVersion, h]; rfl

/-- Witness for C10 at a concrete unparseable current version. -/
theorem findFixedVersion_unparseable_current_witness :
    findFixedVersion (("x").toList) [("3.1.4").toList] = Except.ok (some (("3.1.4").toList)) := by
  rw [findFixedVersion_unparseable_current.1 (("x").toList) [("3.1.4").toList] (by decide)]
  rfl

/-- C5: `isVersionVulnerable` is a total boolean function (never throws) that
returns `false` whenever the version does not clean to a parseable semver
(e.g. `""`, `"invalid"`), and `false` whenever the range is malformed. -/
theorem isVersionVulnerable_total_safe :
    (∀ v r, semverClean v = none → isVersionVulnerable v r = false)
  ∧ (∀ v r, parseRange r = none → isVersionVulnerable v r = false)
  ∧ isVersionVulnerable (("").toList) ((">=1.0.0").toList) = false
  ∧ isVersionVulnerable (("invalid").toList) ((">=1.0.0").toList) = false
  ∧ isVersionVulnerable (("1.2.3").toList) (("not a range").toList) = false := by
  refine ⟨?_, ?_, by decide, by decide, by decide⟩
  · intro v r h; simp only [isVersionVulnerable, h]
  · intro v r h
    cases hv : semverClean v with
    | none => simp only [isVersionVulnerable, hv]
    | some cv => simp only [isVersionVulnerable, hv, h]

/-- Witness for C5 at concrete inputs. -/
theorem isVersionVulnerable_total_safe_witness :
    isVersionVulnerable (("x.y").toList) ((">=1.0.0").toList) = false ∧
    isVersionVulnerable (("1.2.3").toList) (("^1.0.0 garbage").toList) = false :=
  ⟨isVersionVulnerable_total_safe.1 _ _ (by decide),
   isVersionVulnerable_total_safe.2.1 _ _ (by decide)⟩

/-- C2 (amended): the npm and pnpm parsers treat a lockfile over 100 MB
exactly like a missing one (`none`, independently of the content, which is
never parsed), while the yarn parser has no size guard at all — its result
does not depend on the file size. -/
theorem lockfile_size_guard :
    (∀ (size : Nat) (doc : Option NpmLockfileV2), MAX_LOCKFILE_SIZE < size →
        parseNpmLockfile (some (size, doc)) = none ∧
        parseNpmLockfile (some (size, doc)) = parseNpmLockfile none)
  ∧ (∀ (size : Nat) (doc : Option PnpmLockfile), MAX_LOCKFILE_SIZE < size →
        parsePnpmLockfile (some (size, doc)) = none ∧
        parsePnpmLockfile (some (size, doc)) = parsePnpmLockfile none)
  ∧ (∀ (size size2 : Nat) (content : Str),
        parseYarnLockfile (some (size, content)) = parseYarnLockfile (some (size2, content))) := by
  refine ⟨?_, ?_, ?_⟩
  · intro size doc h
    constructor <;> simp only [parseNpmLockfile, if_pos h]
  · intro size doc h
    constructor <;> simp only [parsePnpmLockfile, if_pos h]
  · intro size size2 content; rfl

/-- Witness for C2 (amended) at a concrete oversized size. -/
theorem lockfile_size_guard_witness :
    parseNpmLockfile (some (104857601, some ⟨some [(("node_modules/react").toList,
        ⟨some (("18.2.0").toList), none, none⟩)], none⟩)) = none ∧
    parsePnpmLockfile (some (104857601, some ⟨some [(("/react@18.2.0").toList, ⟨none⟩)],
        none, none, none⟩)) = none :=
  ⟨(lockfile_size_guard.1 104857601 _ (by decide)).1,
   (lockfile_size_guard.2.1 104857601 _ (by decide)).1⟩

/-- Counterexample for C2 as stated: a yarn lockfile whose size exceeds the
100 MB limit is still fully parsed (the result is not the missing-file
signal), because `parseYarnLockfile` performs no size check. -/
theorem yarn_oversized_counterexample :
    MAX_LOCKFILE_SIZE = 104857600
  ∧ parseYarnLockfile (some (104857601, ("react@^18.2.0:\n  version \"18.2.0\"\n").toList)) =
      some [(("react").toList, ⟨("18.2.0").toList, none, none⟩)]
  ∧ parseYarnLockfile (some (104857601, ("react@^18.2.0:\n  version \"18.2.0\"\n").toList)) ≠
      none := by
  exact ⟨by decide, by decide, by decide⟩

/-- Counterexample for C1 as stated: in the v1 fallback, a name occurring
twice in the nested `dependencies` tree is recorded with the version of its
*last* occurrence in traversal order (`1.1.1`), not its first (`9.9.9`). -/
theorem npm_v1_first_wins_counterexample :
    (lookupFirst (flattenDeps (NpmDepList.cons (("a").toList)
        (NpmDepNode.mk (("1.0.0").toList) none none
          (NpmDepList.cons (("dup").toList)
            (NpmDepNode.mk (("9.9.9").toList) none none NpmDepList.nil) NpmDepList.nil))
        (NpmDepList.cons (("dup").toList)
          (NpmDepNode.mk (("1.1.1").toList) none none NpmDepList.nil) NpmDepList.nil)))
      (("dup").toList) = some ⟨("9.9.9").toList, none, none⟩)
  ∧ (parseNpmLockfile (some (1, some ⟨none, some (NpmDepList.cons (("a").toList)
        (NpmDepNode.mk (("1.0.0").toList) none none
          (NpmDepList.cons (("dup").toList)
            (NpmDepNode.mk (("9.9.9").toList) none none NpmDepList.nil) NpmDepList.nil))
        (NpmDepList.cons (("dup").toList)
          (NpmDepNode.mk (("1.1.1").toList) none none NpmDepList.nil) NpmDepList.nil))⟩))).map
      (fun m => jsGet m (("dup").toList)) = some (some ⟨("1.1.1").toList, none, none⟩)
  ∧ (⟨("1.1.1").toList, none, none⟩ : LockfileEntry) ≠ ⟨("9.9.9").toList, none, none⟩ := by
  exact ⟨by decide, by decide, by decide⟩

/-- Counterexample for C6 as stated: the key
`packages/app/node_modules/lodash` (a workspace-style key that does not start
with `node_modules/`) is used verbatim as the package name, not reduced to
its final segment after splitting on `node_modules/` (which would be
`lodash`). -/
theorem npm_name_derivation_counterexample :
    deriveNpmName (("packages/app/node_modules/lodash").toList) =
      ("packages/app/node_modules/lodash").toList
  ∧ deriveNpmName (("packages/app/node_modules/lodash").toList) ≠ ("lodash").toList
  ∧ (splitOnSub (("node_modules/").toList)
      (("packages/app/node_modules/lodash").toList)).getLastD [] = ("lodash").toList
  ∧ (parseNpmLockfile (some (1, some ⟨some [(("packages/app/node_modules/lodash").toList,
        ⟨some (("4.17.21").toList), none, none⟩)], none⟩))).map
      (fun m => (jsGet m (("lodash").toList),
                 jsGet m (("packages/app/node_modules/lodash").toList))) =
      some (none, some ⟨("4.17.21").toList, none, none⟩) := by
  exact ⟨by decide, by decide, by decide, by decide⟩

/-- Counterexample for C8 as stated: with an empty fixed list the result is
`undefined` (not a member), and with a non-empty list containing an
unparseable entry the call throws (`semver.compare`/`semver.major` raise),
again returning no member. -/
theorem findFixedVersion_member_counterexample :
    findFixedVersion (("1.0.0").toList) [] = Except.ok none
  ∧ ¬(∃ r, r ∈ ([] : List Str) ∧
        findFixedVersion (("1.0.0").toList) [] = Except.ok (some r))
  ∧ findFixedVersion (("1.0.0").toList) [("junk").toList] = Except.error ()
  ∧ ¬(∃ r, r ∈ [("junk").toList] ∧
        findFixedVersion (("1.0.0").toList) [("junk").toList] = Except.ok (some r)) := by
  refine ⟨by decide, ?_, by decide, ?_⟩
  · rintro ⟨r, hr, -⟩
    exact (List.not_mem_nil r) hr
  · rintro ⟨r, hr, heq⟩
    rw [show findFixedVersion (("1.0.0").toList) [("junk").toList] = Except.error () from
      by decide] at heq
    exact Except.noConfusion heq

mutual

/-- `extractDeps` performs exactly the assignments of the pre-order
flattening, in order. -/
theorem extractDeps_eq_fold (deps : NpmDepList) (packages : PackageMap) :
    extractDeps deps packages = jsSetFold (flattenDeps deps) packages :=
  match deps with
  | NpmDepList.nil => rfl
  | NpmDepList.cons name node rest => by
    rw [show extractDeps (NpmDepList.cons name node rest) packages =
          extractDeps rest (extractNode name node packages) from rfl]
    rw [extractDeps_eq_fold rest (extractNode name node packages),
        extractNode_eq_fold name node packages]
    rw [show flattenDeps (NpmDepList.cons name node rest) =
          flattenNode name node ++ flattenDeps rest from rfl]
    rw [jsSetFold_append]

/-- `extractNode` performs exactly the assignments of the node's pre-order
flattening, in order. -/
theorem extractNode_eq_fold (name : Str) (node : NpmDepNode) (packages : PackageMap) :
    extractNode name node packages = jsSetFold (flattenNode name node) packages :=
  match node with
  | NpmDepNode.mk v r i children => by
    rw [show extractNode name (NpmDepNode.mk v r i children) packages =
          extractDeps children (jsSet packages name ⟨v, r, i⟩) from rfl]
    rw [extractDeps_eq_fold children (jsSet packages name ⟨v, r, i⟩)]
    rfl

end

/-- C1 (amended): in *both* npm lockfile code paths duplicates resolve
last-wins.  The v1 fallback records, for every name, the entry of the last
assignment in the pre-order traversal of the nested `dependencies` tree; the
v2/v3 path records the entry of the last key of the `packages` map deriving
that name. -/
theorem npm_duplicate_last_wins :
    (∀ (deps : NpmDepList) (packages : PackageMap) (name : Str),
        jsGet (extractDeps deps packages) name =
          match lookupLast (flattenDeps deps) name with
          | some e => some e
          | none => jsGet packages name)
  ∧ (∀ (pkgs : List (Str × NpmPkgEntry)) (name : Str),
        jsGet (npmV2Fold pkgs) name = lookupLast (v2Assignments pkgs) name) := by
  constructor
  · intro deps packages name
    rw [extractDeps_eq_fold, jsGet_jsSetFold]
    cases lookupLast (flattenDeps deps) name <;> rfl
  · intro pkgs name
    rw [show npmV2Fold pkgs = jsSetFold (v2Assignments pkgs) [] from rfl, jsGet_jsSetFold]
    cases lookupLast (v2Assignments pkgs) name <;> rfl

/-- A boolean known to be `false` is not `true`. -/
theorem bool_false_neg {b : Bool} (h : b = false) : ¬(b = true) := by
  rw [h]; exact Bool.false_ne_true

/-- A string with no occurrence of the separator splits into one segment. -/
theorem splitSkip_of_no_sub (sep : Str) :
    ∀ (rest cur : Str), hasSubstr rest sep = false →
      splitSkip sep rest 0 cur = [cur.reverse ++ rest]
  | [], cur, _ => by simp [splitSkip]
  | hc :: t, cur, h => by
    have hpre : sep.isPrefixOf (hc :: t) = false := by
      by_cases hp : sep.isPrefixOf (hc :: t) = true
      · rw [hasSubstr, if_pos hp] at h
        exact absurd h (by simp)
      · exact Bool.eq_false_iff.mpr hp
    have ht : hasSubstr t sep = false := by
      rw [hasSubstr, if_neg (bool_false_neg hpre)] at h
      exact h
    rw [show splitSkip sep (hc :: t) 0 cur =
          (if sep.isPrefixOf (hc :: t) then
            cur.reverse :: splitSkip sep t (sep.length - 1) []
          else splitSkip sep t 0 (hc :: cur)) from rfl]
    rw [if_neg (bool_false_neg hpre)]
    rw [splitSkip_of_no_sub sep t (hc :: cur) ht]
    simp

/-- All names recorded by the v2/v3 path are non-empty: the root entry can
never appear. -/
theorem v2Assignments_keys_ne_nil (pkgs : List (Str × NpmPkgEntry)) :
    ∀ q ∈ v2Assignments pkgs, q.1 ≠ [] := by
  intro q hq
  simp only [v2Assignments, List.mem_filterMap] at hq
  obtain ⟨p, hp, hf⟩ := hq
  split at hf
  · exact Option.noConfusion hf
  · split at hf
    · exact Option.noConfusion hf
    · split at hf
      · exact Option.noConfusion hf
      · rename_i hname
        injection hf with hf
        rw [← hf]
        exact hname

/-- C6 (amended): the two example keys derive as the claim states and the
root (empty-key) entry is excluded, but only keys beginning with
`node_modules/` are reduced to their final `node_modules/`-segment — any
other key (for example a workspace path such as
`packages/app/node_modules/lodash`) is used verbatim as the package name. -/
theorem npm_name_derivation :
    deriveNpmName (("node_modules/@scope/pkg").toList) = ("@scope/pkg").toList
  ∧ deriveNpmName (("node_modules/a/node_modules/b").toList) = ("b").toList
  ∧ (∀ key, (("node_modules/").toList).isPrefixOf key = false → deriveNpmName key = key)
  ∧ (∀ rest, hasSubstr rest (("/node_modules/").toList) = false →
        deriveNpmName ((("node_modules/").toList) ++ rest) = rest)
  ∧ (∀ pkgs, jsGet (npmV2Fold pkgs) [] = none) := by
  refine ⟨by decide, by decide, ?_, ?_, ?_⟩
  · intro key h
    rw [show deriveNpmName key =
          (if (("node_modules/").toList).isPrefixOf key then
            (splitOnSub (("/node_modules/").toList)
              (key.drop (("node_modules/").toList).length)).getLastD
              (key.drop (("node_modules/").toList).length)
          else key) from rfl]
    rw [if_neg (bool_false_neg h)]
  · intro rest h
    have hpre : (("node_modules/").toList).isPrefixOf
        ((("node_modules/").toList) ++ rest) = true := by
      rw [List.isPrefixOf_iff_prefix]
      exact List.prefix_append _ _
    rw [show deriveNpmName ((("node_modules/").toList) ++ rest) =
          (if (("node_modules/").toList).isPrefixOf ((("node_modules/").toList) ++ rest) then
            (splitOnSub (("/node_modules/").toList)
              (((("node_modules/").toList) ++ rest).drop (("node_modules/").toList).length)).getLastD
              (((("node_modules/").toList) ++ rest).drop (("node_modules/").toList).length)
          else (("node_modules/").toList) ++ rest) from rfl]
    rw [if_pos hpre]
    rw [List.drop_left]
    rw [show splitOnSub (("/node_modules/").toList) rest =
          splitSkip (("/node_modules/").toList) rest 0 [] from rfl]
    rw [splitSkip_of_no_sub _ rest [] h]
    rfl
  · intro pkgs
    have h1 := jsGet_jsSetFold (v2Assignments pkgs) ([] : PackageMap) ([] : Str)
    rw [show npmV2Fold pkgs = jsSetFold (v2Assignments pkgs) [] from rfl, h1,
        lookupLast_eq_none _ _ (v2Assignments_keys_ne_nil pkgs)]
    rfl

/-- Witness for C6 (amended) at concrete keys. -/
theorem npm_name_derivation_witness :
    deriveNpmName (("packages/foo").toList) = ("packages/foo").toList ∧
    deriveNpmName (("node_modules/lodash").toList) = ("lodash").toList := by
  constructor
  · exact npm_name_derivation.2.2.1 (("packages/foo").toList) (by decide)
  · have h := npm_name_derivation.2.2.2.1 (("lodash").toList) (by decide)
    rw [show (("node_modules/").toList) ++ (("lodash").toList) =
          ("node_modules/lodash").toList from by decide] at h
    exact h

/-- The pnpm secondary extraction never overwrites an existing entry. -/
theorem extractDepsPnpm_preserves_list (l : List (Str × PnpmDepInfo)) :
    ∀ (acc : PackageMap) (name : Str) (e : LockfileEntry),
      jsGet acc name = some e → jsGet (extractDepsPnpm (some l) acc) name = some e := by
  induction l with
  | nil => intro acc name e h; exact h
  | cons p t ih =>
    intro acc name e h
    rw [show extractDepsPnpm (some (p :: t)) acc =
          extractDepsPnpm (some t)
            (if p.2.version ≠ [] && ¬(("link:").toList).isPrefixOf p.2.version &&
                (jsGet acc p.1).isNone then
              jsSet acc p.1 ⟨(splitOnChar '(' p.2.version).headD [], none, none⟩
            else acc) from rfl]
    apply ih
    split
    · rename_i hcond
      rw [jsGet_jsSet]
      by_cases hn : name = p.1
      · exfalso
        simp only [Bool.and_eq_true] at hcond
        have hnone := hcond.2
        rw [← hn, h] at hnone
        simp at hnone
      · rw [if_neg hn]; exact h
    · exact h

/-- Any entry the pnpm secondary extraction adds for a previously absent name
comes from a non-`link:` dependency entry of that name, with the
parenthesised peer suffix stripped from its version. -/
theorem extractDepsPnpm_new_list (l : List (Str × PnpmDepInfo)) :
    ∀ (acc : PackageMap) (name : Str) (e : LockfileEntry),
      jsGet acc name = none →
      jsGet (extractDepsPnpm (some l) acc) name = some e →
      ∃ info, (name, info) ∈ l ∧ info.version ≠ [] ∧
        (("link:").toList).isPrefixOf info.version = false ∧
        e = ⟨(splitOnChar '(' info.version).headD [], none, none⟩ := by
  induction l with
  | nil =>
    intro acc name e h0 h
    rw [show extractDepsPnpm (some []) acc = acc from rfl] at h
    rw [h] at h0
    exact Option.noConfusion h0
  | cons p t ih =>
    intro acc name e h0 h
    rw [show extractDepsPnpm (some (p :: t)) acc =
          extractDepsPnpm (some t)
            (if p.2.version ≠ [] && ¬(("link:").toList).isPrefixOf p.2.version &&
                (jsGet acc p.1).isNone then
              jsSet acc p.1 ⟨(splitOnChar '(' p.2.version).headD [], none, none⟩
            else acc) from rfl] at h
    by_cases hcond : (p.2.version ≠ [] && ¬(("link:").toList).isPrefixOf p.2.version &&
        (jsGet acc p.1).isNone) = true
    · rw [if_pos hcond] at h
      by_cases hn : name = p.1
      · have hset : jsGet (jsSet acc p.1
            ⟨(splitOnChar '(' p.2.version).headD [], none, none⟩) name =
            some ⟨(splitOnChar '(' p.2.version).headD [], none, none⟩ := by
          rw [jsGet_jsSet, if_pos hn]
        have hfinal := extractDepsPnpm_preserves_list t _ name _ hset
        rw [hfinal] at h
        injection h with h
        simp only [Bool.and_eq_true, decide_eq_true_eq] at hcond
        refine ⟨p.2, ?_, hcond.1.1, Bool.eq_false_iff.mpr hcond.1.2, h.symm⟩
        rw [hn]
        exact List.mem_cons_self p t
      · have hset : jsGet (jsSet acc p.1
            ⟨(splitOnChar '(' p.2.version).headD [], none, none⟩) name = none := by
          rw [jsGet_jsSet, if_neg hn]; exact h0
        obtain ⟨info, hmem, h1, h2, h3⟩ := ih _ name e hset h
        exact ⟨info, List.mem_cons_of_mem p hmem, h1, h2, h3⟩
    · rw [if_neg hcond] at h
      obtain ⟨info, hmem, h1, h2, h3⟩ := ih _ name e h0 h
      exact ⟨info, List.mem_cons_of_mem p hmem, h1, h2, h3⟩

/-- Preservation through an optional dependency object. -/
theorem extractDepsPnpm_preserves (o : Option (List (Str × PnpmDepInfo)))
    (acc : PackageMap) (name : Str) (e : LockfileEntry)
    (h : jsGet acc name = some e) : jsGet (extractDepsPnpm o acc) name = some e := by
  cases o with
  | none => exact h
  | some l => exact extractDepsPnpm_preserves_list l acc name e h

/-- Preservation through the importers loop. -/
theorem importersFold_preserves (imps : List (Str × PnpmImporter)) :
    ∀ (acc : PackageMap) (name : Str) (e : LockfileEntry),
      jsGet acc name = some e →
      jsGet (imps.foldl (fun acc2 imp =>
        extractDepsPnpm imp.2.devDependencies
          (extractDepsPnpm imp.2.dependencies acc2)) acc) name = some e := by
  induction imps with
  | nil => intro acc name e h; exact h
  | cons imp t ih =>
    intro acc name e h
    exact ih _ name e (extractDepsPnpm_preserves _ _ name e
      (extractDepsPnpm_preserves _ _ name e h))

/-- Preservation through the whole secondary phase. -/
theorem pnpmSecondary_preserves (lockfile : PnpmLockfile) (acc : PackageMap)
    (name : Str) (e : LockfileEntry) (h : jsGet acc name = some e) :
    jsGet (pnpmSecondary lockfile acc) name = some e := by
  simp only [pnpmSecondary]
  cases himp : lockfile.importers with
  | none =>
    exact extractDepsPnpm_preserves _ _ name e (extractDepsPnpm_preserves _ _ name e h)
  | some imps =>
    exact importersFold_preserves imps _ name e
      (extractDepsPnpm_preserves _ _ name e (extractDepsPnpm_preserves _ _ name e h))

/-- C7: entries contributed by the pnpm secondary structure have their
parenthesised peer-disambiguation suffix stripped, `link:` versions are
skipped entirely (any new entry comes from a non-empty, non-`link:` version),
and a name already present — in particular one from the `packages` map — is
never overwritten. -/
theorem pnpm_secondary_entries :
    (∀ (l : List (Str × PnpmDepInfo)) (acc : PackageMap) (name : Str) (e : LockfileEntry),
        jsGet acc name = some e → jsGet (extractDepsPnpm (some l) acc) name = some e)
  ∧ (∀ (l : List (Str × PnpmDepInfo)) (acc : PackageMap) (name : Str) (e : LockfileEntry),
        jsGet acc name = none →
        jsGet (extractDepsPnpm (some l) acc) name = some e →
        ∃ info, (name, info) ∈ l ∧ info.version ≠ [] ∧
          (("link:").toList).isPrefixOf info.version = false ∧
          e = ⟨(splitOnChar '(' info.version).headD [], none, none⟩)
  ∧ (∀ (lockfile : PnpmLockfile) (name : Str) (e : LockfileEntry),
        jsGet (pnpmBase lockfile) name = some e →
        parsePnpmLockfile (some (0, some lockfile)) =
          some (pnpmSecondary lockfile (pnpmBase lockfile)) ∧
        jsGet (pnpmSecondary lockfile (pnpmBase lockfile)) name = some e) := by
  refine ⟨extractDepsPnpm_preserves_list, extractDepsPnpm_new_list, ?_⟩
  intro lockfile name e h
  exact ⟨rfl, pnpmSecondary_preserves lockfile _ name e h⟩

/-- Witness for C7 at a concrete lockfile: the `packages`-map entry for
`react` survives a conflicting secondary entry, and the new `lodash` entry is
stored with its peer suffix stripped. -/
theorem pnpm_secondary_entries_witness :
    jsGet (extractDepsPnpm (some [(("react").toList, ⟨("99.0.0(x@1.0.0)").toList⟩)])
        [(("react").toList, ⟨("18.2.0").toList, none, none⟩)]) (("react").toList) =
      some ⟨("18.2.0").toList, none, none⟩ :=
  pnpm_secondary_entries.1 _ _ _ _ (by decide)

/-- Every element surviving the inner match loop satisfies the containment
check (or was already in the accumulator). -/
theorem resolveOneMatch_fold_within (rootPath : Str) (ms : List Str) :
    ∀ (r : List Str), (∀ x ∈ r, isPathWithinRoot rootPath x = true) →
      ∀ x ∈ ms.foldl (resolveOneMatch rootPath) r, isPathWithinRoot rootPath x = true := by
  induction ms with
  | nil => intro r hr x hx; exact hr x hx
  | cons m t ih =>
    intro r hr x hx
    apply ih (resolveOneMatch rootPath r m) ?_ x hx
    intro y hy
    simp only [resolveOneMatch] at hy
    split at hy
    · rename_i hwithin
      rcases List.mem_append.mp hy with hcase | hcase
      · exact hr y hcase
      · rw [List.mem_singleton.mp hcase]
        exact hwithin
    · exact hr y hy

/-- Every element surviving the pattern loop satisfies the containment
check. -/
theorem resolveOnePattern_fold_within (rootPath : Str) (globOracle : Str → List Str)
    (patterns : List Str) :
    ∀ (r : List Str), (∀ x ∈ r, isPathWithinRoot rootPath x = true) →
      ∀ x ∈ patterns.foldl (resolveOnePattern rootPath globOracle) r,
        isPathWithinRoot rootPath x = true := by
  induction patterns with
  | nil => intro r hr x hx; exact hr x hx
  | cons pat t ih =>
    intro r hr x hx
    apply ih (resolveOnePattern rootPath globOracle r pat) ?_ x hx
    intro y hy
    simp only [resolveOnePattern] at hy
    split at hy
    · exact hr y hy
    · split at hy
      · exact hr y hy
      · exact resolveOneMatch_fold_within rootPath _ r hr y hy

/-- `dedupFirst` only keeps elements of its input. -/
theorem dedupFirst_subset (l : List Str) : ∀ x ∈ dedupFirst l, x ∈ l := by
  have haux : ∀ (l acc : List Str) (x : Str),
      x ∈ l.foldl (fun acc y => if y ∈ acc then acc else acc ++ [y]) acc →
      x ∈ acc ∨ x ∈ l := by
    intro l
    induction l with
    | nil => intro acc x hx; exact Or.inl hx
    | cons y t ih =>
      intro acc x hx
      rcases ih _ x hx with hcase | hcase
      · by_cases hin : y ∈ acc
        · simp only [hin, if_true] at hcase
          exact Or.inl hcase
        · simp only [hin, if_false] at hcase
          rcases List.mem_append.mp hcase with hc | hc
          · exact Or.inl hc
          · rw [List.mem_singleton.mp hc]
            exact Or.inr (List.mem_cons_self y t)
      · exact Or.inr (List.mem_cons_of_mem y hcase)
  intro x hx
  rcases haux l [] x hx with hcase | hcase
  · exact absurd hcase (List.not_mem_nil x)
  · exact hcase

/-- A pattern containing `..` contributes nothing, for any oracle. -/
theorem resolveOnePattern_dotdot (rootPath : Str) (globOracle : Str → List Str)
    (resolved : List Str) (pattern : Str)
    (h : hasSubstr pattern ('.' :: '.' :: []) = true) :
    resolveOnePattern rootPath globOracle resolved pattern = resolved := by
  simp only [resolveOnePattern]
  by_cases hbang : (("!").toList).isPrefixOf pattern = true
  · rw [if_pos hbang]
  · rw [if_neg hbang, if_pos h]

/-- A negation pattern contributes nothing, for any oracle. -/
theorem resolveOnePattern_negation (rootPath : Str) (globOracle : Str → List Str)
    (resolved : List Str) (pattern : Str)
    (h : (("!").toList).isPrefixOf pattern = true) :
    resolveOnePattern rootPath globOracle resolved pattern = resolved := by
  simp only [resolveOnePattern]
  rw [if_pos h]

/-- C4: every entry of the resolved package list — and hence of
`WorkspaceInfo.packages` for any detected workspace — is lexically contained
in the root (its `path.relative` neither starts with `..` nor is absolute);
patterns containing `..` are rejected before glob evaluation and contribute
zero entries regardless of filesystem contents, and negation patterns are
dropped entirely. -/
theorem workspace_containment :
    (∀ (rootPath : Str) (patterns : List Str) (globOracle : Str → List Str) (p : Str),
        p ∈ resolvePatterns rootPath patterns globOracle →
        isPathWithinRoot rootPath p = true ∧
        ('.' :: '.' :: []).isPrefixOf (pathRelative rootPath p) = false ∧
        ((('/') :: []) : Str).isPrefixOf (pathRelative rootPath p) = false)
  ∧ (∀ (rootPath : Str) (globOracle : Str → List Str) (resolved : List Str) (pattern : Str),
        hasSubstr pattern ('.' :: '.' :: []) = true →
        resolveOnePattern rootPath globOracle resolved pattern = resolved)
  ∧ (∀ (rootPath : Str) (globOracle : Str → List Str) (pattern : Str),
        hasSubstr pattern ('.' :: '.' :: []) = true →
        resolvePatterns rootPath [pattern] globOracle = [])
  ∧ (∀ (rootPath : Str) (patterns : List Str) (globOracle : Str → List Str),
        resolvePatterns rootPath patterns globOracle =
          resolvePatterns rootPath (patterns.filter (fun q =>
            !((("!").toList).isPrefixOf q) && !(hasSubstr q ('.' :: '.' :: [])))) globOracle)
  ∧ (∀ (rootPath : Str) (pnpmPatterns lernaPatterns npmPatterns : Option (List Str))
        (yarnLockExists : Bool) (globOracle : Str → List Str) (p : Str),
        p ∈ (detectWorkspace rootPath pnpmPatterns lernaPatterns npmPatterns
              yarnLockExists globOracle).packages →
        isPathWithinRoot rootPath p = true) := by
  have hmain : ∀ (rootPath : Str) (patterns : List Str) (globOracle : Str → List Str) (p : Str),
      p ∈ resolvePatterns rootPath patterns globOracle →
      isPathWithinRoot rootPath p = true := by
    intro rootPath patterns globOracle p hp
    have hsub := dedupFirst_subset _ p hp
    exact resolveOnePattern_fold_within rootPath globOracle patterns []
      (fun x hx => absurd hx (List.not_mem_nil x)) p hsub
  refine ⟨?_, resolveOnePattern_dotdot, ?_, ?_, ?_⟩
  · intro rootPath patterns globOracle p hp
    have hw := hmain rootPath patterns globOracle p hp
    refine ⟨hw, ?_, ?_⟩
    · simp only [isPathWithinRoot, Bool.and_eq_true, decide_eq_true_eq] at hw
      exact Bool.eq_false_iff.mpr hw.1
    · simp only [isPathWithinRoot, Bool.and_eq_true, decide_eq_true_eq] at hw
      exact Bool.eq_false_iff.mpr hw.2
  · intro rootPath globOracle pattern h
    simp only [resolvePatterns, List.foldl]
    rw [resolveOnePattern_dotdot rootPath globOracle [] pattern h]
    rfl
  · intro rootPath patterns globOracle
    simp only [resolvePatterns]
    congr 1
    have haux : ∀ (ps : List Str) (acc : List Str),
        ps.foldl (resolveOnePattern rootPath globOracle) acc =
        (ps.filter (fun q =>
          !((("!").toList).isPrefixOf q) && !(hasSubstr q ('.' :: '.' :: [])))).foldl
          (resolveOnePattern rootPath globOracle) acc := by
      intro ps
      induction ps with
      | nil => intro acc; rfl
      | cons q t ih =>
        intro acc
        by_cases hbang : (("!").toList).isPrefixOf q = true
        · rw [List.foldl_cons, resolveOnePattern_negation rootPath globOracle acc q hbang]
          rw [show (List.filter (fun q =>
              !((("!").toList).isPrefixOf q) && !(hasSubstr q ('.' :: '.' :: []))) (q :: t)) =
            (List.filter (fun q =>
              !((("!").toList).isPrefixOf q) && !(hasSubstr q ('.' :: '.' :: []))) t) from by
            rw [List.filter_cons]
            rw [if_neg (by rw [hbang]; simp)]]
          exact ih acc
        · by_cases hdot : hasSubstr q ('.' :: '.' :: []) = true
          · rw [List.foldl_cons, resolveOnePattern_dotdot rootPath globOracle acc q hdot]
            rw [show (List.filter (fun q =>
                !((("!").toList).isPrefixOf q) && !(hasSubstr q ('.' :: '.' :: []))) (q :: t)) =
              (List.filter (fun q =>
                !((("!").toList).isPrefixOf q) && !(hasSubstr q ('.' :: '.' :: []))) t) from by
              rw [List.filter_cons]
              rw [if_neg (by rw [hdot]; simp)]]
            exact ih acc
          · have hA : (("!").toList).isPrefixOf q = false := Bool.eq_false_iff.mpr hbang
            have hB : hasSubstr q ('.' :: '.' :: []) = false := Bool.eq_false_iff.mpr hdot
            rw [List.foldl_cons]
            rw [show (List.filter (fun q =>
                !((("!").toList).isPrefixOf q) && !(hasSubstr q ('.' :: '.' :: []))) (q :: t)) =
              q :: (List.filter (fun q =>
                !((("!").toList).isPrefixOf q) && !(hasSubstr q ('.' :: '.' :: []))) t) from by
              rw [List.filter_cons]
              rw [if_pos (by rw [hA, hB]; rfl)]]
            rw [List.foldl_cons]
            exact ih (resolveOnePattern rootPath globOracle acc q)
    exact haux patterns []
  · intro rootPath pnpmPatterns lernaPatterns npmPatterns yarnLockExists globOracle p hp
    simp only [detectWorkspace] at hp
    cases pnpmPatterns with
    | some pats => exact hmain rootPath pats globOracle p hp
    | none =>
      cases lernaPatterns with
      | some pats => exact hmain rootPath pats globOracle p hp
      | none =>
        cases npmPatterns with
        | some pats => exact hmain rootPath pats globOracle p hp
        | none => exact absurd hp (List.not_mem_nil p)

/-- Witness for C4 at the spec's own test vector: the escape pattern
`../../etc/*` resolves zero packages for an oracle that would happily return
an outside path. -/
theorem workspace_containment_witness :
    resolvePatterns (("/r").toList) [("../../etc/*").toList]
      (fun _ => [("/etc/x/package.json").toList]) = [] :=
  workspace_containment.2.2.1 (("/r").toList)
    (fun _ => [("/etc/x/package.json").toList]) (("../../etc/*").toList) (by decide)

/-! ## Version-order and sorting lemmas -/

/-- `vle` unfolded to arithmetic on components. -/
theorem vle_iff (a b : SemVer) : vle a b = true ↔
    (a.major < b.major ∨ (a.major = b.major ∧
      (a.minor < b.minor ∨ (a.minor = b.minor ∧ a.patch ≤ b.patch)))) := by
  rcases a with ⟨a1, a2, a3⟩
  rcases b with ⟨b1, b2, b3⟩
  simp only [vle, vlt, Bool.or_eq_true, Bool.and_eq_true, decide_eq_true_eq, SemVer.mk.injEq]
  omega

/-- Reflexivity of `vle`. -/
theorem vle_refl (a : SemVer) : vle a a = true := by
  simp [vle]

/-- Strict order implies the weak one. -/
theorem vle_of_vlt {a b : SemVer} (h : vlt a b = true) : vle a b = true := by
  simp [vle, h]

/-- Totality of the version order. -/
theorem vlt_or_vle (a b : SemVer) : vlt a b = true ∨ vle b a = true := by
  rcases a with ⟨a1, a2, a3⟩
  rcases b with ⟨b1, b2, b3⟩
  simp only [vlt, vle, Bool.or_eq_true, Bool.and_eq_true, decide_eq_true_eq, SemVer.mk.injEq]
  omega

/-- Totality: a failed strict comparison yields the reverse weak one. -/
theorem vle_of_not_vlt {a b : SemVer} (h : vlt a b = false) : vle b a = true := by
  rcases vlt_or_vle a b with hc | hc
  · rw [h] at hc
    exact Bool.noConfusion hc
  · exact hc

/-- Transitivity of `vle`. -/
theorem vle_trans {a b c : SemVer} (h1 : vle a b = true) (h2 : vle b c = true) :
    vle a c = true := by
  rw [vle_iff] at h1 h2 ⊢
  omega

/-- Membership through `insertSorted`. -/
theorem mem_insertSorted (x y : Str × SemVer) (s : List (Str × SemVer)) :
    y ∈ insertSorted x s ↔ y = x ∨ y ∈ s := by
  induction s with
  | nil => simp [insertSorted]
  | cons q t ih =>
    simp only [insertSorted]
    split
    · simp only [List.mem_cons]
    · simp only [List.mem_cons, ih]
      tauto

/-- Membership through `sortVers`. -/
theorem mem_sortVers (y : Str × SemVer) (s : List (Str × SemVer)) :
    y ∈ sortVers s ↔ y ∈ s := by
  induction s with
  | nil => simp [sortVers]
  | cons q t ih =>
    simp only [sortVers, mem_insertSorted, List.mem_cons, ih]

/-- `insertSorted` never produces the empty list. -/
theorem insertSorted_ne_nil (x : Str × SemVer) (s : List (Str × SemVer)) :
    insertSorted x s ≠ [] := by
  cases s with
  | nil => simp [insertSorted]
  | cons q t =>
    simp only [insertSorted]
    split
    · simp
    · simp

/-- `sortVers` preserves non-emptiness. -/
theorem sortVers_ne_nil {s : List (Str × SemVer)} (h : s ≠ []) : sortVers s ≠ [] := by
  cases s with
  | nil => exact absurd rfl h
  | cons q t => exact insertSorted_ne_nil q (sortVers t)

/-- `insertSorted` preserves sortedness. -/
theorem pairwise_insertSorted (x : Str × SemVer) (s : List (Str × SemVer))
    (h : s.Pairwise (fun a b => vle a.2 b.2 = true)) :
    (insertSorted x s).Pairwise (fun a b => vle a.2 b.2 = true) := by
  induction s with
  | nil => simp [insertSorted]
  | cons q t ih =>
    rcases List.pairwise_cons.mp h with ⟨hq, ht⟩
    simp only [insertSorted]
    split
    · rename_i hlt
      refine List.pairwise_cons.mpr ⟨?_, h⟩
      intro z hz
      rcases List.mem_cons.mp hz with hz | hz
      · rw [hz]; exact vle_of_vlt hlt
      · exact vle_trans (vle_of_vlt hlt) (hq z hz)
    · rename_i hnlt
      refine List.pairwise_cons.mpr ⟨?_, ih ht⟩
      intro z hz
      rcases (mem_insertSorted x z t).mp hz with hz | hz
      · rw [hz]
        exact vle_of_not_vlt (Bool.eq_false_iff.mpr hnlt)
      · exact hq z hz

/-- The stable insertion sort is sorted. -/
theorem pairwise_sortVers (s : List (Str × SemVer)) :
    (sortVers s).Pairwise (fun a b => vle a.2 b.2 = true) := by
  induction s with
  | nil => exact List.Pairwise.nil
  | cons q t ih => exact pairwise_insertSorted q (sortVers t) ih

/-- An element returned by `getLast?` is a member. -/
theorem getLast?_mem_own : ∀ (l : List (Str × SemVer)) (x : Str × SemVer),
    l.getLast? = some x → x ∈ l
  | [], x, h => Option.noConfusion h
  | [a], x, h => by
    rw [show ([a] : List (Str × SemVer)).getLast? = some a from rfl] at h
    injection h with h
    rw [← h]
    exact List.mem_singleton_self a
  | a :: b :: t, x, h => by
    rw [List.getLast?_cons_cons] at h
    exact List.mem_cons_of_mem a (getLast?_mem_own (b :: t) x h)

/-- In a sorted list, the last element dominates every member. -/
theorem pairwise_getLast_vle : ∀ (s : List (Str × SemVer)),
    s.Pairwise (fun a b => vle a.2 b.2 = true) →
    ∀ (x : Str × SemVer), s.getLast? = some x → ∀ y ∈ s, vle y.2 x.2 = true := by
  intro s
  induction s with
  | nil =>
    intro _ x hx
    exact absurd hx (by simp)
  | cons a t ih =>
    intro hp x hx y hy
    cases t with
    | nil =>
      rw [show ([a] : List (Str × SemVer)).getLast? = some a from rfl] at hx
      injection hx with hx
      rw [List.mem_singleton.mp hy, ← hx]
      exact vle_refl _
    | cons b t2 =>
      rw [List.getLast?_cons_cons] at hx
      rcases List.pairwise_cons.mp hp with ⟨ha, hp2⟩
      rcases List.mem_cons.mp hy with hy | hy
      · rw [hy]
        exact ha x (getLast?_mem_own _ x hx)
      · exact ih hp2 x hx y hy

/-- One step of the selection loop. -/
theorem findLoop_cons (cM cm : Nat) (f : Str) (v : SemVer) (rest : List (Str × SemVer)) :
    findLoop cM cm ((f, v) :: rest) =
      if v.major = cM ∧ (v.minor = cm ∨ cm < v.minor) then some f
      else findLoop cM cm rest := by
  simp only [findLoop]
  by_cases h1 : v.major = cM
  · by_cases h2 : v.minor = cm
    · rw [if_pos (by simp [h1, h2]), if_pos ⟨h1, Or.inl h2⟩]
    · rw [if_neg (by simp [h2])]
      by_cases h3 : cm < v.minor
      · rw [if_pos (by simp [h1, h3]), if_pos ⟨h1, Or.inr h3⟩]
      · rw [if_neg (by simp [h3]), if_neg ?_]
        rintro ⟨-, hcase | hcase⟩
        · exact h2 hcase
        · exact h3 hcase
  · rw [if_neg (by simp [h1]), if_neg (by simp [h1]), if_neg ?_]
    rintro ⟨hh, -⟩
    exact h1 hh

/-- A `none` result of the loop means no candidate satisfies either
condition. -/
theorem findLoop_none_forall (cM cm : Nat) : ∀ (s : List (Str × SemVer)),
    findLoop cM cm s = none →
    ∀ p ∈ s, ¬(p.2.major = cM ∧ (p.2.minor = cm ∨ cm < p.2.minor)) := by
  intro s
  induction s with
  | nil =>
    intro _ p hp
    exact absurd hp (List.not_mem_nil p)
  | cons q t ih =>
    intro h p hp
    rcases q with ⟨g, w⟩
    rw [findLoop_cons] at h
    by_cases hc : w.major = cM ∧ (w.minor = cm ∨ cm < w.minor)
    · rw [if_pos hc] at h
      exact Option.noConfusion h
    · rw [if_neg hc] at h
      rcases List.mem_cons.mp hp with hp | hp
      · rw [hp]; exact hc
      · exact ih h p hp

/-- A `some` result of the loop decomposes the list around the first
satisfying candidate. -/
theorem findLoop_some_split (cM cm : Nat) : ∀ (s : List (Str × SemVer)) (f : Str),
    findLoop cM cm s = some f →
    ∃ pre v post, s = pre ++ (f, v) :: post ∧
      (v.major = cM ∧ (v.minor = cm ∨ cm < v.minor)) ∧
      ∀ p ∈ pre, ¬(p.2.major = cM ∧ (p.2.minor = cm ∨ cm < p.2.minor)) := by
  intro s
  induction s with
  | nil => intro f h; exact Option.noConfusion h
  | cons q t ih =>
    intro f h
    rcases q with ⟨g, w⟩
    rw [findLoop_cons] at h
    by_cases hc : w.major = cM ∧ (w.minor = cm ∨ cm < w.minor)
    · rw [if_pos hc] at h
      injection h with h
      refine ⟨[], w, t, by rw [h, List.nil_append], hc, ?_⟩
      intro p hp
      exact absurd hp (List.not_mem_nil p)
    · rw [if_neg hc] at h
      obtain ⟨pre, v, post, heq, hcond, hpre⟩ := ih f h
      refine ⟨(g, w) :: pre, v, post, by rw [heq]; rfl, hcond, ?_⟩
      intro p hp
      rcases List.mem_cons.mp hp with hp | hp
      · rw [hp]; exact hc
      · exact hpre p hp

/-- Soundness and completeness of the annotation pass. -/
theorem annotate_spec : ∀ (l : List Str) (ann : List (Str × SemVer)),
    annotate l = some ann →
    (∀ p ∈ ann, p.1 ∈ l ∧ semverClean p.1 = some p.2) ∧
    (∀ f ∈ l, ∃ v, semverClean f = some v ∧ (f, v) ∈ ann) ∧
    (l = [] ↔ ann = []) := by
  intro l
  induction l with
  | nil =>
    intro ann h
    rw [show annotate [] = some [] from rfl] at h
    injection h with h
    rw [← h]
    exact ⟨by simp, by simp, by simp⟩
  | cons f t ih =>
    intro ann h
    cases hv : semverClean f with
    | none =>
      cases hann : annotate t with
      | none =>
        rw [show annotate (f :: t) = (match semverClean f, annotate t with
            | some v, some rest => some ((f, v) :: rest)
            | _, _ => none) from rfl, hv, hann] at h
        exact Option.noConfusion h
      | some rest =>
        rw [show annotate (f :: t) = (match semverClean f, annotate t with
            | some v, some rest => some ((f, v) :: rest)
            | _, _ => none) from rfl, hv, hann] at h
        exact Option.noConfusion h
    | some v =>
      cases hann : annotate t with
      | none =>
        rw [show annotate (f :: t) = (match semverClean f, annotate t with
            | some v, some rest => some ((f, v) :: rest)
            | _, _ => none) from rfl, hv, hann] at h
        exact Option.noConfusion h
      | some rest =>
        rw [show annotate (f :: t) = (match semverClean f, annotate t with
            | some v, some rest => some ((f, v) :: rest)
            | _, _ => none) from rfl, hv, hann] at h
        injection h with h
        obtain ⟨ih1, ih2, ih3⟩ := ih rest hann
        subst h
        refine ⟨?_, ?_, by simp⟩
        · intro p hp
          rcases List.mem_cons.mp hp with hp | hp
          · rw [hp]
            exact ⟨List.mem_cons_self f t, hv⟩
          · obtain ⟨h1, h2⟩ := ih1 p hp
            exact ⟨List.mem_cons_of_mem f h1, h2⟩
        · intro g hg
          rcases List.mem_cons.mp hg with hg | hg
          · rw [hg]
            exact ⟨v, hv, List.mem_cons_self _ _⟩
          · obtain ⟨w, hw1, hw2⟩ := ih2 g hg
            exact ⟨w, hw1, List.mem_cons_of_mem _ hw2⟩

/-- Annotation succeeds on lists of parseable versions. -/
theorem annotate_total : ∀ (l : List Str), (∀ f ∈ l, (semverClean f).isSome) →
    ∃ ann, annotate l = some ann := by
  intro l
  induction l with
  | nil => intro _; exact ⟨[], rfl⟩
  | cons f t ih =>
    intro h
    obtain ⟨ann, hann⟩ := ih (fun g hg => h g (List.mem_cons_of_mem f hg))
    have hf := h f (List.mem_cons_self f t)
    cases hv : semverClean f with
    | none => rw [hv] at hf; exact absurd hf (by simp)
    | some v =>
      refine ⟨(f, v) :: ann, ?_⟩
      rw [show annotate (f :: t) = (match semverClean f, annotate t with
          | some v, some rest => some ((f, v) :: rest)
          | _, _ => none) from rfl, hv, hann]

/-- C8 (amended): for every non-empty fixed-version list, provided the call
does not throw — i.e. the current version is unparseable (the early-return
path) or every fixed version is parseable — `findFixedVersion` returns a
member of the supplied list. -/
theorem findFixedVersion_mem (cur : Str) (l : List Str) (hne : l ≠ [])
    (h : semverClean cur = none ∨ ∀ f ∈ l, (semverClean f).isSome) :
    ∃ r, findFixedVersion cur l = Except.ok (some r) ∧ r ∈ l := by
  cases hc : semverClean cur with
  | none =>
    cases hl : l.getLast? with
    | none => exact absurd (List.getLast?_eq_none_iff.mp hl) hne
    | some x =>
      refine ⟨x, ?_, ?_⟩
      · rw [show findFixedVersion cur l = Except.ok l.getLast? from by
          simp only [findFixedVersion, hc], hl]
      · have hgl := List.mem_getLast?_eq_getLast (l := l) (x := x) (by rw [hl]; rfl)
        obtain ⟨hh, hx⟩ := hgl
        rw [hx]
        exact List.getLast_mem hh
  | some cv =>
    have hall : ∀ f ∈ l, (semverClean f).isSome := by
      rcases h with h | h
      · rw [hc] at h; exact Option.noConfusion h
      · exact h
    obtain ⟨ann, hann⟩ := annotate_total l hall
    obtain ⟨spec1, spec2, spec3⟩ := annotate_spec l ann hann
    have hanne : ann ≠ [] := fun hh => hne (spec3.mpr hh)
    have hunfold : findFixedVersion cur l =
        (match findLoop cv.major cv.minor (sortVers ann) with
         | some f => Except.ok (some f)
         | none => Except.ok (((sortVers ann).getLast?).map Prod.fst)) := by
      simp only [findFixedVersion, hc, hann]
    cases hloop : findLoop cv.major cv.minor (sortVers ann) with
    | some f =>
      obtain ⟨pre, v, post, heq, -, -⟩ := findLoop_some_split _ _ _ f hloop
      have hmem : (f, v) ∈ sortVers ann := by
        rw [heq]
        exact List.mem_append.mpr (Or.inr (List.mem_cons_self _ _))
      exact ⟨f, by rw [hunfold, hloop], (spec1 (f, v) ((mem_sortVers _ ann).mp hmem)).1⟩
    | none =>
      have hsne : sortVers ann ≠ [] := sortVers_ne_nil hanne
      cases hl : (sortVers ann).getLast? with
      | none => exact absurd (List.getLast?_eq_none_iff.mp hl) hsne
      | some x =>
        refine ⟨x.1, ?_, ?_⟩
        · rw [hunfold, hloop, hl]
          rfl
        · exact (spec1 x ((mem_sortVers x ann).mp (getLast?_mem_own _ x hl))).1

/-- Witness for C8 (amended) at a concrete call. -/
theorem findFixedVersion_mem_witness :
    ∃ r, findFixedVersion (("1.2.3").toList) [("2.0.0").toList] =
      Except.ok (some r) ∧ r ∈ [("2.0.0").toList] :=
  findFixedVersion_mem (("1.2.3").toList) [("2.0.0").toList] (by decide)
    (Or.inr (by decide))

/-- C3: for a parseable current version and a non-empty list of parseable
fixed candidates, `findFixedVersion` returns a candidate `r` (with parse
`rv`) such that: (a) if some candidate has the exact current major.minor,
`rv` has it too; (b) otherwise, if some candidate has the current major and a
strictly greater minor, `rv` is the least such candidate; (c) otherwise `rv`
is the greatest candidate overall. -/
theorem findFixedVersion_selection (cur : Str) (l : List Str) (cv : SemVer)
    (hc : semverClean cur = some cv) (hne : l ≠ [])
    (hall : ∀ f ∈ l, (semverClean f).isSome) :
    ∃ r rv, findFixedVersion cur l = Except.ok (some r) ∧ r ∈ l ∧ semverClean r = some rv ∧
      ((∃ f ∈ l, ∃ fv, semverClean f = some fv ∧ fv.major = cv.major ∧ fv.minor = cv.minor) →
          rv.major = cv.major ∧ rv.minor = cv.minor) ∧
      (¬(∃ f ∈ l, ∃ fv, semverClean f = some fv ∧ fv.major = cv.major ∧ fv.minor = cv.minor) →
        (∃ f ∈ l, ∃ fv, semverClean f = some fv ∧ fv.major = cv.major ∧ cv.minor < fv.minor) →
          rv.major = cv.major ∧ cv.minor < rv.minor ∧
          (∀ f ∈ l, ∀ fv, semverClean f = some fv → fv.major = cv.major →
            cv.minor < fv.minor → vle rv fv = true)) ∧
      (¬(∃ f ∈ l, ∃ fv, semverClean f = some fv ∧ fv.major = cv.major ∧ fv.minor = cv.minor) →
        ¬(∃ f ∈ l, ∃ fv, semverClean f = some fv ∧ fv.major = cv.major ∧ cv.minor < fv.minor) →
          ∀ f ∈ l, ∀ fv, semverClean f = some fv → vle fv rv = true) := by
  obtain ⟨ann, hann⟩ := annotate_total l hall
  obtain ⟨spec1, spec2, spec3⟩ := annotate_spec l ann hann
  have hanne : ann ≠ [] := fun hh => hne (spec3.mpr hh)
  have hpair := pairwise_sortVers ann
  have hunfold : findFixedVersion cur l =
      (match findLoop cv.major cv.minor (sortVers ann) with
       | some f => Except.ok (some f)
       | none => Except.ok (((sortVers ann).getLast?).map Prod.fst)) := by
    simp only [findFixedVersion, hc, hann]
  have htrans : ∀ (P : SemVer → Prop),
      (∃ f ∈ l, ∃ fv, semverClean f = some fv ∧ P fv) ↔
      (∃ p ∈ sortVers ann, P p.2) := by
    intro P
    constructor
    · rintro ⟨f, hf, fv, hfv, hP⟩
      obtain ⟨v, hv1, hv2⟩ := spec2 f hf
      rw [hfv] at hv1
      injection hv1 with hv1
      refine ⟨(f, fv), (mem_sortVers _ ann).mpr ?_, hP⟩
      rw [hv1]
      exact hv2
    · rintro ⟨p, hp, hP⟩
      obtain ⟨h1, h2⟩ := spec1 p ((mem_sortVers p ann).mp hp)
      exact ⟨p.1, h1, p.2, h2, hP⟩
  cases hloop : findLoop cv.major cv.minor (sortVers ann) with
  | some f =>
    obtain ⟨pre, v, post, heq, hcond, hpre⟩ := findLoop_some_split _ _ _ f hloop
    have hmemS : (f, v) ∈ sortVers ann := by
      rw [heq]
      exact List.mem_append.mpr (Or.inr (List.mem_cons_self _ _))
    obtain ⟨hfl, hfclean⟩ := spec1 (f, v) ((mem_sortVers _ ann).mp hmemS)
    have hpairSplit := hpair
    rw [heq] at hpairSplit
    obtain ⟨-, hpairCons, -⟩ := List.pairwise_append.mp hpairSplit
    have hpost : ∀ p ∈ post, vle v p.2 = true :=
      fun p hp => (List.pairwise_cons.mp hpairCons).1 p hp
    refine ⟨f, v, by rw [hunfold, hloop], hfl, hfclean, ?_, ?_, ?_⟩
    · intro hex
      obtain ⟨q, hq, hqP⟩ :=
        (htrans (fun fv => fv.major = cv.major ∧ fv.minor = cv.minor)).mp hex
      rw [heq] at hq
      rcases List.mem_append.mp hq with hq | hq
      · exact absurd ⟨hqP.1, Or.inl hqP.2⟩ (hpre q hq)
      · rcases List.mem_cons.mp hq with hq | hq
        · rw [hq] at hqP
          exact hqP
        · rcases hcond.2 with hm | hm
          · exact ⟨hcond.1, hm⟩
          · exfalso
            have hvq := hpost q hq
            rw [vle_iff] at hvq
            rcases hqP with ⟨hq1, hq2⟩
            rcases hcond with ⟨hv1, -⟩
            omega
    · intro hnex hnext
      have hvnotexact : ¬(v.minor = cv.minor) := by
        intro hm
        exact hnex ((htrans (fun fv => fv.major = cv.major ∧ fv.minor = cv.minor)).mpr
          ⟨(f, v), hmemS, hcond.1, hm⟩)
      have hvnext : cv.minor < v.minor := by
        rcases hcond.2 with hm | hm
        · exact absurd hm hvnotexact
        · exact hm
      refine ⟨hcond.1, hvnext, ?_⟩
      intro g hg fv hgv hg1 hg2
      obtain ⟨w, hw1, hw2⟩ := spec2 g hg
      rw [hgv] at hw1
      injection hw1 with hw1
      have hgmem : (g, fv) ∈ sortVers ann := by
        refine (mem_sortVers _ ann).mpr ?_
        rw [hw1]
        exact hw2
      rw [heq] at hgmem
      rcases List.mem_append.mp hgmem with hq | hq
      · exact absurd ⟨hg1, Or.inr hg2⟩ (hpre (g, fv) hq)
      · rcases List.mem_cons.mp hq with hq | hq
        · injection hq with hq1 hq2
          rw [hq2]
          exact vle_refl v
        · exact hpost (g, fv) hq
    · intro hnex hnnext
      rcases hcond.2 with hm | hm
      · exact (hnex ((htrans (fun fv => fv.major = cv.major ∧ fv.minor = cv.minor)).mpr
          ⟨(f, v), hmemS, hcond.1, hm⟩)).elim
      · exact (hnnext ((htrans (fun fv => fv.major = cv.major ∧ cv.minor < fv.minor)).mpr
          ⟨(f, v), hmemS, hcond.1, hm⟩)).elim
  | none =>
    have hnone := findLoop_none_forall _ _ _ hloop
    have hsne : sortVers ann ≠ [] := sortVers_ne_nil hanne
    cases hl : (sortVers ann).getLast? with
    | none => exact absurd (List.getLast?_eq_none_iff.mp hl) hsne
    | some x =>
      obtain ⟨hxl, hxclean⟩ := spec1 x ((mem_sortVers x ann).mp (getLast?_mem_own _ x hl))
      refine ⟨x.1, x.2, by rw [hunfold, hloop, hl]; rfl, hxl, hxclean, ?_, ?_, ?_⟩
      · intro hex
        obtain ⟨q, hq, hqP⟩ :=
          (htrans (fun fv => fv.major = cv.major ∧ fv.minor = cv.minor)).mp hex
        exact (hnone q hq ⟨hqP.1, Or.inl hqP.2⟩).elim
      · intro hnex hnext
        obtain ⟨q, hq, hqP⟩ :=
          (htrans (fun fv => fv.major = cv.major ∧ cv.minor < fv.minor)).mp hnext
        exact (hnone q hq ⟨hqP.1, Or.inr hqP.2⟩).elim
      · intro hnex hnnext g hg fv hgv
        obtain ⟨w, hw1, hw2⟩ := spec2 g hg
        rw [hgv] at hw1
        injection hw1 with hw1
        have hgmem : (g, fv) ∈ sortVers ann := by
          refine (mem_sortVers _ ann).mpr ?_
          rw [hw1]
          exact hw2
        exact pairwise_getLast_vle (sortVers ann) hpair x hl (g, fv) hgmem

/-- Witness for C3 at a concrete current version and candidate list. -/
theorem findFixedVersion_selection_witness :
    ∃ r rv, findFixedVersion (("1.2.0").toList) [("2.0.0").toList, ("1.3.0").toList] =
        Except.ok (some r) ∧
      r ∈ [("2.0.0").toList, ("1.3.0").toList] ∧ semverClean r = some rv ∧
      ((∃ f ∈ [("2.0.0").toList, ("1.3.0").toList], ∃ fv, semverClean f = some fv ∧
          fv.major = SemVer.major ⟨1, 2, 0⟩ ∧ fv.minor = SemVer.minor ⟨1, 2, 0⟩) →
          rv.major = SemVer.major ⟨1, 2, 0⟩ ∧ rv.minor = SemVer.minor ⟨1, 2, 0⟩) ∧
      (¬(∃ f ∈ [("2.0.0").toList, ("1.3.0").toList], ∃ fv, semverClean f = some fv ∧
          fv.major = SemVer.major ⟨1, 2, 0⟩ ∧ fv.minor = SemVer.minor ⟨1, 2, 0⟩) →
        (∃ f ∈ [("2.0.0").toList, ("1.3.0").toList], ∃ fv, semverClean f = some fv ∧
          fv.major = SemVer.major ⟨1, 2, 0⟩ ∧ SemVer.minor ⟨1, 2, 0⟩ < fv.minor) →
          rv.major = SemVer.major ⟨1, 2, 0⟩ ∧ SemVer.minor ⟨1, 2, 0⟩ < rv.minor ∧
          (∀ f ∈ [("2.0.0").toList, ("1.3.0").toList], ∀ fv, semverClean f = some fv →
            fv.major = SemVer.major ⟨1, 2, 0⟩ → SemVer.minor ⟨1, 2, 0⟩ < fv.minor →
            vle rv fv = true)) ∧
      (¬(∃ f ∈ [("2.0.0").toList, ("1.3.0").toList], ∃ fv, semverClean f = some fv ∧
          fv.major = SemVer.major ⟨1, 2, 0⟩ ∧ fv.minor = SemVer.minor ⟨1, 2, 0⟩) →
        ¬(∃ f ∈ [("2.0.0").toList, ("1.3.0").toList], ∃ fv, semverClean f = some fv ∧
          fv.major = SemVer.major ⟨1, 2, 0⟩ ∧ SemVer.minor ⟨1, 2, 0⟩ < fv.minor) →
          ∀ f ∈ [("2.0.0").toList, ("1.3.0").toList], ∀ fv, semverClean f = some fv →
            vle fv rv = true) :=
  findFixedVersion_selection (("1.2.0").toList) [("2.0.0").toList, ("1.3.0").toList]
    ⟨1, 2, 0⟩ (by decide) (by decide) (by decide)
